import Mathlib

/-!
istring: immutable strings over a ladder of power-of-two buffers.

A shallow embedding of `istring.hpp`.

* A code unit (`Char`) is a natural number; `nullchr` is `0`.
* `std::array<Char, N>` is a list of code units of length `N`; the template
  parameter `N` of `istring_t<std::array<Char, N>>` is the length of `buf`.
* `std::size_t` has 64 bits, `int` has 32 bits; the conversions between them
  that the constructors perform are `to_int` and `to_size_t`.
* `throw std::logic_error{what}` is `Except.error what`.
* A `const Char*` into a buffer is the list of code units from that position
  to the end of the buffer.
* An access outside an array is undefined in C++, and the value-level functions
  are the source's results only for calls whose accesses are all inside their
  arrays.  Outside that domain they are total but say nothing about the source:
  a store at an index outside the array leaves the array as it is, and a scan
  (`strlen`, `strcmp`) that reaches the end of the array stops there.
* The index traces (`copy_writes`, `make_istring_writes`, `strlen_reads`,
  `make_char_array_writes`, ...) list the indices the code reads or stores at,
  inside the array or not.  `has_terminator`, `make_istring_defined` and
  `make_char_array_defined` state, on the traces, that every access of a call is
  inside its arrays; the statements about buffer contents, lengths and
  comparisons of the results of `make_istring` and `resize_to` carry them as
  hypotheses.
-/

namespace istr

/-! ## Constants and the capacity ladder -/

/-- Width of `std::size_t` in bits. -/
def size_t_bits : Nat := 64

/-- The source's `max_string_length`, that is `static_cast<std::size_t>(1) << 31`. -/
def max_string_length : Nat := 1 <<< 31

/-- The source's `set_bit<Power>::value`, that is `static_cast<std::size_t>(1) << Power`. -/
def set_bit (Power : Nat) : Nat := 1 <<< Power

/-- The source's `next_power_of_two<Input>::value`: the cascade of thirty-two
comparisons, ending in `0`. -/
def next_power_of_two (Input : Nat) : Nat :=
  if (1 <<< 0)  ≥ Input then 1 <<< 0  else
  if (1 <<< 1)  ≥ Input then 1 <<< 1  else
  if (1 <<< 2)  ≥ Input then 1 <<< 2  else
  if (1 <<< 3)  ≥ Input then 1 <<< 3  else
  if (1 <<< 4)  ≥ Input then 1 <<< 4  else
  if (1 <<< 5)  ≥ Input then 1 <<< 5  else
  if (1 <<< 6)  ≥ Input then 1 <<< 6  else
  if (1 <<< 7)  ≥ Input then 1 <<< 7  else
  if (1 <<< 8)  ≥ Input then 1 <<< 8  else
  if (1 <<< 9)  ≥ Input then 1 <<< 9  else
  if (1 <<< 10) ≥ Input then 1 <<< 10 else
  if (1 <<< 11) ≥ Input then 1 <<< 11 else
  if (1 <<< 12) ≥ Input then 1 <<< 12 else
  if (1 <<< 13) ≥ Input then 1 <<< 13 else
  if (1 <<< 14) ≥ Input then 1 <<< 14 else
  if (1 <<< 15) ≥ Input then 1 <<< 15 else
  if (1 <<< 16) ≥ Input then 1 <<< 16 else
  if (1 <<< 17) ≥ Input then 1 <<< 17 else
  if (1 <<< 18) ≥ Input then 1 <<< 18 else
  if (1 <<< 19) ≥ Input then 1 <<< 19 else
  if (1 <<< 20) ≥ Input then 1 <<< 20 else
  if (1 <<< 21) ≥ Input then 1 <<< 21 else
  if (1 <<< 22) ≥ Input then 1 <<< 22 else
  if (1 <<< 23) ≥ Input then 1 <<< 23 else
  if (1 <<< 24) ≥ Input then 1 <<< 24 else
  if (1 <<< 25) ≥ Input then 1 <<< 25 else
  if (1 <<< 26) ≥ Input then 1 <<< 26 else
  if (1 <<< 27) ≥ Input then 1 <<< 27 else
  if (1 <<< 28) ≥ Input then 1 <<< 28 else
  if (1 <<< 29) ≥ Input then 1 <<< 29 else
  if (1 <<< 30) ≥ Input then 1 <<< 30 else
  if (1 <<< 31) ≥ Input then 1 <<< 31 else
  0

/-- The source's `regular_array<T, Input>` is `std::array<T, next_power_of_two<Input>::value>`;
this is its number of elements. -/
def regular_array (Input : Nat) : Nat := next_power_of_two Input

/-- The capacity ladder of the data model: the powers of two from `2^0` to `2^31`. -/
def ladder (c : Nat) : Prop := ∃ j, j ≤ 31 ∧ c = 2 ^ j

/-- Scan of the ladder from rung `bit` over `fuel` rungs: the first rung that
covers `target`, or `0` when none of them does.  It is the cascade of
`next_power_of_two` read as a loop. -/
def ladder_scan (target : Nat) : Nat → Nat → Nat
  | _, 0 => 0
  | bit, fuel + 1 =>
    if (1 <<< bit) ≥ target then 1 <<< bit else ladder_scan target (bit + 1) fuel

/-! ## Integer conversions -/

/-- Conversion of a `std::size_t` to `int` (the constructors take the length as
`int l`): the low 32 bits, read as a two's complement number. -/
def to_int (x : Nat) : Int :=
  if x % 2 ^ 32 < 2 ^ 31 then ((x % 2 ^ 32 : Nat) : Int) else ((x % 2 ^ 32 : Nat) : Int) - 2 ^ 32

/-- Conversion of an `int` to `std::size_t` (the member initialiser `len(l)`):
the value modulo `2^64`. -/
def to_size_t (l : Int) : Nat := (l % 2 ^ size_t_bits).toNat

/-! ## C strings and arrays -/

/-- The terminator `Char{}`. -/
def nullchr : Nat := 0

/-- The buffer holds a terminator. -/
def has_terminator (a : List Nat) : Prop := nullchr ∈ a

instance (a : List Nat) : Decidable (has_terminator a) := by
  unfold has_terminator; exact inferInstance

/-- The code units before the first terminator. -/
def content (a : List Nat) : List Nat := a.takeWhile (fun c => c != nullchr)

/-- C's `strlen`: the number of code units before the first terminator, for an
array that holds one.  On an array without a terminator the source reads on past
its end (undefined); this function then returns the length of the array. -/
def strlen : List Nat → Nat
  | [] => 0
  | c :: cs => if c = nullchr then 0 else strlen cs + 1

/-- C's `strcmp`: walk both strings while the left unit is not the terminator
and equals the right unit, then return the difference of the two units reached. -/
def strcmp : List Nat → List Nat → Int
  | a :: as, b :: bs => if a ≠ nullchr ∧ a = b then strcmp as bs else (a : Int) - (b : Int)
  | a :: _, [] => (a : Int) - (nullchr : Int)
  | [], b :: _ => (nullchr : Int) - (b : Int)
  | [], [] => 0

/-- The store `temp[i] = c` on a `std::array`, for an index `i` inside the array.
The source's store at an index outside the array is undefined; there this
function returns the array as it is, which stands for nothing in the source. -/
def store (temp : List Nat) (i : Nat) (c : Nat) : List Nat := temp.set i c

/-- The call `std::copy(first, last, d_first)` where `src` is the range
`[first, last)` and the destination starts at index `d_first` of `temp`: one
store per unit, at consecutive indices. -/
def copy : List Nat → Nat → List Nat → List Nat
  | [], _, temp => temp
  | c :: cs, d_first, temp => copy cs (d_first + 1) (store temp d_first c)

/-- The value-initialised array `std::array<Char, N> temp{}`. -/
def zero_array (N : Nat) : List Nat := List.replicate N nullchr

/-- The source's `make_char_array<Str>(a)` where `buffer_size` is
`Str::buffer_size`.  It is the source's result when every access is inside the
arrays (`make_char_array_defined`): `a` holds a terminator, so `strlen` stops
inside it, and `size + 1` is below `buffer_size`, so the last store is inside
`temp`.  Otherwise the source's behaviour is undefined. -/
def make_char_array (buffer_size : Nat) (a : List Nat) : List Nat :=
  let temp := zero_array buffer_size
  let size := strlen a
  let temp := copy (a.take size) 0 temp
  let temp := store temp (size + 1) nullchr
  temp

/-! ## The fixed-capacity variant and the erased handle -/

/-- The specialisation `istring_t<std::array<Char, N>>`: `N` is `buf.length`. -/
structure istring_array where
  buf : List Nat
  len : Nat
deriving DecidableEq, Repr

/-- The erased handle `istring_t<Char>`: `ptr_vtable` points to
`vtable_holder<istring_t<std::array<Char, N>>>::val_vtable` and is recorded as
that `N`; `ptr` is the instance the shared pointer owns. -/
structure istring_t where
  ptr_vtable : Nat
  ptr : istring_array
deriving DecidableEq, Repr

/-- The handle's converting constructor `istring_t(const istring_t<std::array<Char, N>>& other)`. -/
def istring_t.of_array (other : istring_array) : istring_t :=
  { ptr_vtable := other.buf.length, ptr := other }

namespace istring_array

/-- The constructor `istring_t(const char* a, int l)` of the variant of capacity `N`. -/
def of_cstr (N : Nat) (a : List Nat) (l : Int) : istring_array :=
  { buf := make_char_array N a, len := to_size_t l }

/-- The constructor `istring_t(const std::array<Char, N>& a, int l)`. -/
def of_std_array (a : List Nat) (l : Int) : istring_array :=
  { buf := a, len := to_size_t l }

/-- The member `buffer_size`, the template parameter `N`. -/
def buffer_size (s : istring_array) : Nat := s.buf.length

/-- The number of elements of `next_array`: `(N * 2 < N) ? N : N * 2` in `std::size_t`. -/
def next_array (N : Nat) : Nat :=
  if (N * 2) % 2 ^ size_t_bits < N then N else (N * 2) % 2 ^ size_t_bits

/-- The source's `is_empty()`. -/
def is_empty (s : istring_array) : Bool :=
  s.buffer_size == 0 || s.buf[0]? == some nullchr

/-- The source's `begin()`: the pointer `&buf[0]`. -/
def begin (s : istring_array) : List Nat := s.buf

/-- The source's `end()`: the pointer `&buf[0] + len`. -/
def end_ (s : istring_array) : List Nat := s.buf.drop s.len

/-- The source's `size()`. -/
def size (s : istring_array) : Nat := s.len

/-- The source's `clone()` with its default result type. -/
def clone (s : istring_array) : istring_array := s

/-- The source's `clone<istring_t<Char>>()`, the instance the capability table holds. -/
def clone_erased (s : istring_array) : istring_t := istring_t.of_array s

/-- The source's `operator[]`; `none` stands for an index outside the array. -/
def bracket_operator (s : istring_array) (index : Nat) : Option Nat := s.buf[index]?

/-- The source's `resize()` with its default result type `istring_t<next_array>`. -/
def resize (s : istring_array) : Except String istring_array :=
  if next_array s.buffer_size == max_string_length then
    Except.error "string too large; cannot resize"
  else
    let temp := zero_array (next_array s.buffer_size)
    let temp := copy s.buf 0 temp
    Except.ok (of_std_array temp (to_int s.len))

/-- The source's `resize<istring_t<Char>>()`, the instance the capability table holds. -/
def resize_erased (s : istring_array) : Except String istring_t :=
  match s.resize with
  | Except.error what => Except.error what
  | Except.ok r => Except.ok (istring_t.of_array r)

/-- One use of the source's `ISTRING_RESIZE_TO(bit)`; `otherwise` is the code after it. -/
@[macro_inline]
def ISTRING_RESIZE_TO (bit : Nat) (target_size : Nat) (s : istring_array)
    (otherwise : Except String istring_t) : Except String istring_t :=
  if target_size ≤ set_bit bit then
    Except.ok (istring_t.of_array (of_cstr (set_bit bit) s.begin (to_int s.len)))
  else otherwise

/-- The source's `resize_to(Size)`. -/
def resize_to (s : istring_array) (Size : Nat) : Except String istring_t :=
  let target_size := max Size s.buffer_size
  ISTRING_RESIZE_TO 1 target_size s <|
  ISTRING_RESIZE_TO 2 target_size s <|
  ISTRING_RESIZE_TO 3 target_size s <|
  ISTRING_RESIZE_TO 4 target_size s <|
  ISTRING_RESIZE_TO 5 target_size s <|
  ISTRING_RESIZE_TO 6 target_size s <|
  ISTRING_RESIZE_TO 7 target_size s <|
  ISTRING_RESIZE_TO 8 target_size s <|
  ISTRING_RESIZE_TO 9 target_size s <|
  ISTRING_RESIZE_TO 10 target_size s <|
  ISTRING_RESIZE_TO 11 target_size s <|
  ISTRING_RESIZE_TO 12 target_size s <|
  ISTRING_RESIZE_TO 13 target_size s <|
  ISTRING_RESIZE_TO 14 target_size s <|
  ISTRING_RESIZE_TO 15 target_size s <|
  ISTRING_RESIZE_TO 16 target_size s <|
  ISTRING_RESIZE_TO 17 target_size s <|
  ISTRING_RESIZE_TO 18 target_size s <|
  ISTRING_RESIZE_TO 19 target_size s <|
  ISTRING_RESIZE_TO 20 target_size s <|
  ISTRING_RESIZE_TO 21 target_size s <|
  ISTRING_RESIZE_TO 22 target_size s <|
  ISTRING_RESIZE_TO 23 target_size s <|
  ISTRING_RESIZE_TO 24 target_size s <|
  ISTRING_RESIZE_TO 25 target_size s <|
  ISTRING_RESIZE_TO 26 target_size s <|
  ISTRING_RESIZE_TO 27 target_size s <|
  ISTRING_RESIZE_TO 28 target_size s <|
  ISTRING_RESIZE_TO 29 target_size s <|
  ISTRING_RESIZE_TO 30 target_size s <|
  ISTRING_RESIZE_TO 31 target_size s <|
  Except.error "cannot resize to a string of this size."

/-- The chain of `ISTRING_RESIZE_TO(bit)` lines from `bit` on, `fuel` of them,
followed by the final `throw`, read as a loop. -/
def resize_to_scan (target_size : Nat) (s : istring_array) : Nat → Nat → Except String istring_t
  | _, 0 => Except.error "cannot resize to a string of this size."
  | bit, fuel + 1 =>
    ISTRING_RESIZE_TO bit target_size s (resize_to_scan target_size s (bit + 1) fuel)

/-- The source's `get_buffer_size()`. -/
def get_buffer_size (s : istring_array) : Nat := s.buffer_size

end istring_array

/-! ## The capability table -/

/-- The source's `istring_t<Char>::vtable`; the `void*` argument of each slot is
the instance it points to. -/
structure vtable where
  is_empty : istring_array → Bool
  begin : istring_array → List Nat
  end_ : istring_array → List Nat
  size : istring_array → Nat
  clone : istring_array → istring_t
  bracket_operator : istring_array → Nat → Option Nat
  resize : istring_array → Except String istring_t
  resize_to : istring_array → Nat → Except String istring_t
  get_buffer_size : istring_array → Nat

/-- The source's `vtable_holder<istring_t<std::array<Char, N>>>::val_vtable`: each
slot is `member<..., &T::f>::wrap`, which casts the `void*` back to `T` and calls
the member. -/
def val_vtable (_N : Nat) : vtable :=
  { is_empty := fun c => istring_array.is_empty c
    begin := fun c => istring_array.begin c
    end_ := fun c => istring_array.end_ c
    size := fun c => istring_array.size c
    clone := fun c => istring_array.clone_erased c
    bracket_operator := fun c index => istring_array.bracket_operator c index
    resize := fun c => istring_array.resize_erased c
    resize_to := fun c Size => istring_array.resize_to c Size
    get_buffer_size := fun c => istring_array.get_buffer_size c }

namespace istring_t

/-- The handle's `is_empty()`. -/
def is_empty (x : istring_t) : Bool := (val_vtable x.ptr_vtable).is_empty x.ptr

/-- The handle's `begin()`. -/
def begin (x : istring_t) : List Nat := (val_vtable x.ptr_vtable).begin x.ptr

/-- The handle's `end()`. -/
def end_ (x : istring_t) : List Nat := (val_vtable x.ptr_vtable).end_ x.ptr

/-- The handle's `size()`. -/
def size (x : istring_t) : Nat := (val_vtable x.ptr_vtable).size x.ptr

/-- The handle's `clone()`. -/
def clone (x : istring_t) : istring_t := (val_vtable x.ptr_vtable).clone x.ptr

/-- The handle's `operator[]`. -/
def bracket_operator (x : istring_t) (index : Nat) : Option Nat :=
  (val_vtable x.ptr_vtable).bracket_operator x.ptr index

/-- The handle's `resize()`. -/
def resize (x : istring_t) : Except String istring_t := (val_vtable x.ptr_vtable).resize x.ptr

/-- The handle's `resize_to(s)`. -/
def resize_to (x : istring_t) (s : Nat) : Except String istring_t :=
  (val_vtable x.ptr_vtable).resize_to x.ptr s

/-- The handle's `get_buffer_size()`. -/
def get_buffer_size (x : istring_t) : Nat := (val_vtable x.ptr_vtable).get_buffer_size x.ptr

end istring_t

/-! ## Construction and comparison -/

/-- The source's `make_istring(const char(&str)[N])`: `str` is the whole array,
terminator included, and `N` is its length.  The number of elements of the
buffer is fixed by the return type.  The contents and the length are the
source's when the call is well-formed and every store is inside `temp`
(`make_istring_defined`): `N` is below `2^31`, so the constant fits the `int`
parameter, and `N` is below the capacity, so the store `temp[N]` is inside.
Otherwise the call is ill-formed or its behaviour undefined. -/
def make_istring (str : List Nat) : istring_array :=
  let N := str.length
  let temp := zero_array (regular_array N)
  let temp := copy str 0 temp
  let temp := store temp N nullchr
  istring_array.of_std_array temp (to_int N)

/-- The array a string literal with the visible code units `vis` denotes. -/
def literal (vis : List Nat) : List Nat := vis ++ [nullchr]

/-- An operand of `operator==`: a concrete variant or an erased handle. -/
inductive operand where
  | concrete (s : istring_array)
  | erased (x : istring_t)
deriving DecidableEq, Repr

/-- The operand's `begin()`. -/
def operand.begin : operand → List Nat
  | operand.concrete s => s.begin
  | operand.erased x => x.begin

/-- The operand's `size()`. -/
def operand.size : operand → Nat
  | operand.concrete s => s.size
  | operand.erased x => x.size

/-- The operand's `get_buffer_size()`. -/
def operand.get_buffer_size : operand → Nat
  | operand.concrete s => s.get_buffer_size
  | operand.erased x => x.get_buffer_size

/-- The four overloads of the source's `operator==`, each
`strcmp(left.begin(), right.begin()) == 0`. -/
def operator_eq : operand → operand → Bool
  | operand.concrete left, operand.concrete right => strcmp left.begin right.begin == 0
  | operand.concrete left, operand.erased right => strcmp left.begin right.begin == 0
  | operand.erased left, operand.concrete right => strcmp left.begin right.begin == 0
  | operand.erased left, operand.erased right => strcmp left.begin right.begin == 0

/-- The visible code units of the literal `"hello, world!"`. -/
def hello_world : List Nat := [104, 101, 108, 108, 111, 44, 32, 119, 111, 114, 108, 100, 33]

/-- The operand's `is_empty()`. -/
def operand.is_empty : operand → Bool
  | operand.concrete s => s.is_empty
  | operand.erased x => x.is_empty

/-- The operand's `operator[]`. -/
def operand.bracket_operator : operand → Nat → Option Nat
  | operand.concrete s => s.bracket_operator
  | operand.erased x => x.bracket_operator

/-- The operand's `clone()`: a concrete variant for a concrete variant, an erased
handle for an erased handle. -/
def operand.clone : operand → operand
  | operand.concrete s => operand.concrete s.clone
  | operand.erased x => operand.erased x.clone

/-- The operand's `resize()`: the next concrete variant for a concrete variant,
an erased handle for an erased handle. -/
def operand.resize : operand → Except String operand
  | operand.concrete s =>
    match s.resize with
    | Except.error what => Except.error what
    | Except.ok r => Except.ok (operand.concrete r)
  | operand.erased x =>
    match x.resize with
    | Except.error what => Except.error what
    | Except.ok r => Except.ok (operand.erased r)

/-- The operand's `resize_to(Size)`: an erased handle in both cases. -/
def operand.resize_to : operand → Nat → Except String operand
  | operand.concrete s, Size =>
    match s.resize_to Size with
    | Except.error what => Except.error what
    | Except.ok r => Except.ok (operand.erased r)
  | operand.erased x, Size =>
    match x.resize_to Size with
    | Except.error what => Except.error what
    | Except.ok r => Except.ok (operand.erased r)

/-- The strings reachable from `make_istring` on an array of at least one and at
most `bound` code units by the conversion to the erased handle and by `clone`,
`resize` and `resize_to` calls that return. -/
inductive reachable (bound : Nat) : operand → Prop
  | make (str : List Nat) : 1 ≤ str.length → str.length ≤ bound →
      reachable bound (operand.concrete (make_istring str))
  | erase (s : istring_array) : reachable bound (operand.concrete s) →
      reachable bound (operand.erased (istring_t.of_array s))
  | clone (s : operand) : reachable bound s → reachable bound s.clone
  | resize (s r : operand) : reachable bound s → s.resize = Except.ok r → reachable bound r
  | resize_to (s r : operand) (Size : Nat) : reachable bound s →
      s.resize_to Size = Except.ok r → reachable bound r

/-- The indices of the destination that `std::copy(first, last, d_first)` stores
at, in order, where `src` is the range `[first, last)` and the destination
starts at index `d_first`. -/
def copy_writes : List Nat → Nat → List Nat
  | [], _ => []
  | _ :: cs, d_first => d_first :: copy_writes cs (d_first + 1)

/-- The indices of `temp` that `make_istring` stores at, in order: those of the
copy, then that of `temp[N] = 0`. -/
def make_istring_writes (str : List Nat) : List Nat :=
  let N := str.length
  copy_writes str 0 ++ [N]

/-- The indices of `a` that `strlen(a)` reads, in order, counted from `first`:
every index up to the one that holds the first terminator; when the array holds
none, the last index read is the one past its end. -/
def strlen_reads : List Nat → Nat → List Nat
  | [], first => [first]
  | c :: cs, first => if c = nullchr then [first] else first :: strlen_reads cs (first + 1)

/-- The indices of the source that `std::copy(first, last, d_first)` reads, in
order, where `src` is the range `[first, last)` and starts at index `first` of
its array. -/
def copy_reads : List Nat → Nat → List Nat
  | [], _ => []
  | _ :: cs, first => first :: copy_reads cs (first + 1)

/-- The indices of `a` that `make_char_array<Str>(a)` reads, in order: those of
`strlen(a)`, then those of the copy of `size` units. -/
def make_char_array_reads (a : List Nat) : List Nat :=
  let size := strlen a
  strlen_reads a 0 ++ copy_reads (a.take size) 0

/-- The indices of `temp` that `make_char_array<Str>(a)` stores at, in order:
those of the copy of `size` units, then that of `temp[size + 1] = nullchr`. -/
def make_char_array_writes (a : List Nat) : List Nat :=
  let size := strlen a
  copy_writes (a.take size) 0 ++ [size + 1]

/-- The indices of the old buffer that a `resize_to(Size)` that returns reads:
those `make_char_array` reads through the pointer `&*buf.begin()`. -/
def istring_array.resize_to_reads (s : istring_array) : List Nat :=
  make_char_array_reads s.begin

/-- The indices of the new buffer that a `resize_to(Size)` that returns stores
at: those of `make_char_array`. -/
def istring_array.resize_to_writes (s : istring_array) : List Nat :=
  make_char_array_writes s.begin

/-- The call `make_istring(str)` is well-formed and every store of it is inside
`temp`: the constant `N` fits the `int` parameter of the constructor (line 380
is ill-formed otherwise), and every index of `make_istring_writes` is below the
number of elements of `regular_array<char, N>`. -/
def make_istring_defined (str : List Nat) : Prop :=
  str.length < 2 ^ 31 ∧ ∀ i, i ∈ make_istring_writes str → i < regular_array str.length

instance (str : List Nat) : Decidable (make_istring_defined str) := by
  unfold make_istring_defined; exact inferInstance

/-- Every access of the call `make_char_array<Str>(a)` is inside its arrays: the
reads inside the array `a` points into, the stores inside `temp`, which has
`buffer_size` elements. -/
def make_char_array_defined (buffer_size : Nat) (a : List Nat) : Prop :=
  (∀ i, i ∈ make_char_array_reads a → i < a.length) ∧
    ∀ i, i ∈ make_char_array_writes a → i < buffer_size

instance (buffer_size : Nat) (a : List Nat) : Decidable (make_char_array_defined buffer_size a) := by
  unfold make_char_array_defined; exact inferInstance

/-- The strings reachable from `make_istring` by calls whose every access is
inside its arrays: a well-formed `make_istring` on an array of at least one code
unit, the conversion to the erased handle, `clone`, a `resize` that returns, and
a `resize_to` that returns and builds its result of capacity
`r.get_buffer_size()` with a `make_char_array` whose accesses are all inside. -/
inductive reachable_defined : operand → Prop
  | make (str : List Nat) : 1 ≤ str.length → make_istring_defined str →
      reachable_defined (operand.concrete (make_istring str))
  | erase (s : istring_array) : reachable_defined (operand.concrete s) →
      reachable_defined (operand.erased (istring_t.of_array s))
  | clone (s : operand) : reachable_defined s → reachable_defined s.clone
  | resize (s r : operand) : reachable_defined s → s.resize = Except.ok r → reachable_defined r
  | resize_to (s r : operand) (Size : Nat) : reachable_defined s →
      s.resize_to Size = Except.ok r → make_char_array_defined r.get_buffer_size s.begin →
      reachable_defined r

/-! ## The ladder: lemmas -/

theorem next_power_of_two_eq_scan (s : Nat) : next_power_of_two s = ladder_scan s 0 32 := by
  simp only [next_power_of_two, ladder_scan]

theorem ladder_scan_spec (s : Nat) :
    ∀ fuel bit, s ≤ 2 ^ (bit + fuel - 1) → 0 < fuel → (∀ j, j < bit → 2 ^ j < s) →
      ∃ j, bit ≤ j ∧ j < bit + fuel ∧ ladder_scan s bit fuel = 2 ^ j ∧ s ≤ 2 ^ j ∧
        ∀ i, i < j → 2 ^ i < s := by
  intro fuel
  induction fuel with
  | zero => intro bit _ h; omega
  | succ n ih =>
    intro bit hs _ hlow
    unfold ladder_scan
    by_cases hc : (1 <<< bit) ≥ s
    · rw [if_pos hc]
      rw [Nat.one_shiftLeft] at hc ⊢
      exact ⟨bit, le_refl _, by omega, rfl, hc, hlow⟩
    · rw [if_neg hc]
      rw [Nat.one_shiftLeft] at hc
      have hn : 0 < n := by
        rcases Nat.eq_zero_or_pos n with h0 | h0
        · subst h0
          simp at hs
          omega
        · exact h0
      have hs2 : s ≤ 2 ^ (bit + 1 + n - 1) := by
        have : bit + 1 + n - 1 = bit + (n + 1) - 1 := by omega
        rw [this]; exact hs
      have hlow2 : ∀ j, j < bit + 1 → 2 ^ j < s := by
        intro j hj
        rcases Nat.lt_succ_iff_lt_or_eq.mp hj with h | h
        · exact hlow j h
        · subst h; omega
      obtain ⟨j, h1, h2, h3, h4, h5⟩ := ih (bit + 1) hs2 hn hlow2
      exact ⟨j, by omega, by omega, h3, h4, h5⟩



theorem ladder_scan_eq_zero_iff (t : Nat) :
    ∀ fuel bit, ladder_scan t bit fuel = 0 ↔ (fuel = 0 ∨ 2 ^ (bit + fuel - 1) < t) := by
  intro fuel
  induction fuel with
  | zero => intro bit; simp [ladder_scan]
  | succ n ih =>
    intro bit
    unfold ladder_scan
    have hpos : 0 < 2 ^ bit := Nat.pos_pow_of_pos bit (by decide)
    by_cases hc : (1 <<< bit) ≥ t
    · rw [if_pos hc]
      rw [Nat.one_shiftLeft] at hc ⊢
      have hmono : 2 ^ bit ≤ 2 ^ (bit + (n + 1) - 1) :=
        Nat.pow_le_pow_right (by decide) (by omega)
      constructor
      · intro h; omega
      · intro h
        rcases h with h | h
        · omega
        · omega
    · rw [if_neg hc, ih (bit + 1)]
      rw [Nat.one_shiftLeft] at hc
      have e : bit + 1 + n - 1 = bit + (n + 1) - 1 := by omega
      rw [e]
      constructor
      · intro h
        rcases h with h | h
        · subst h
          right
          simpa using hc
        · exact Or.inr h
      · intro h
        rcases h with h | h
        · omega
        · rcases Nat.eq_zero_or_pos n with h0 | h0
          · exact Or.inl h0
          · exact Or.inr h

theorem next_power_of_two_spec (s : Nat) (h : s ≤ 2 ^ 31) :
    ∃ j, j ≤ 31 ∧ next_power_of_two s = 2 ^ j ∧ s ≤ 2 ^ j ∧ ∀ i, i < j → 2 ^ i < s := by
  rw [next_power_of_two_eq_scan]
  obtain ⟨j, _, h2, h3, h4, h5⟩ :=
    ladder_scan_spec s 32 0 (by simpa using h) (by decide) (by intro j hj; omega)
  exact ⟨j, by omega, h3, h4, h5⟩

theorem ladder_least (s j c : Nat) (hj : ∀ i, i < j → 2 ^ i < s) (hc : ladder c) (hs : s ≤ c) :
    2 ^ j ≤ c := by
  obtain ⟨i, _, rfl⟩ := hc
  by_cases hij : i < j
  · have := hj i hij
    omega
  · exact Nat.pow_le_pow_right (by decide) (by omega)

theorem next_power_of_two_step (t : Nat) :
    next_power_of_two t = if 1 ≥ t then 1 else ladder_scan t 1 31 := by
  simp only [next_power_of_two, ladder_scan]
  rfl

theorem ladder_scan_one_small (t : Nat) (h : t ≤ 1) : ladder_scan t 1 31 = 2 := by
  unfold ladder_scan
  rw [if_pos (by rw [Nat.one_shiftLeft]; omega)]
  rfl

theorem ladder_scan_one_large (t : Nat) (h : 2 ≤ t) : ladder_scan t 1 31 = next_power_of_two t := by
  rw [next_power_of_two_step, if_neg (by omega)]

/-! ## Arrays: lemmas -/

theorem length_store (temp : List Nat) (i c : Nat) : (store temp i c).length = temp.length := by
  simp [store]

theorem length_copy (src : List Nat) : ∀ (d : Nat) (temp : List Nat),
    (copy src d temp).length = temp.length := by
  induction src with
  | nil => intro d temp; rfl
  | cons c cs ih => intro d temp; simp [copy, ih, length_store]

theorem length_zero_array (N : Nat) : (zero_array N).length = N := by
  simp [zero_array]

theorem length_make_char_array (N : Nat) (a : List Nat) : (make_char_array N a).length = N := by
  simp [make_char_array, length_store, length_copy, length_zero_array]

theorem getElem_opt_store (temp : List Nat) (i c j : Nat) :
    (store temp i c)[j]? = if i = j ∧ j < temp.length then some c else temp[j]? := by
  unfold store
  by_cases h : i = j
  · subst h
    by_cases hl : i < temp.length
    · simp [hl]
    · rw [if_neg (by omega)]
      simp only [not_lt] at hl
      rw [List.getElem?_eq_none (by simpa using hl), List.getElem?_eq_none hl]
  · simp [h, List.getElem?_set_ne h]

theorem getElem_opt_copy (src : List Nat) : ∀ (d : Nat) (temp : List Nat) (j : Nat),
    (copy src d temp)[j]? =
      if d ≤ j ∧ j < d + src.length ∧ j < temp.length then src[j - d]? else temp[j]? := by
  induction src with
  | nil =>
    intro d temp j
    rw [if_neg (by simp only [List.length_nil]; omega)]
    rfl
  | cons c cs ih =>
    intro d temp j
    simp only [copy, ih, length_store, getElem_opt_store, List.length_cons]
    by_cases h1 : d = j
    · subst h1
      by_cases hl : d < temp.length
      · simp [hl]
      · simp [hl]
    · by_cases h2 : d + 1 ≤ j
      · have e : j - d = (j - (d + 1)) + 1 := by omega
        by_cases h3 : j < d + 1 + cs.length ∧ j < temp.length
        · rw [if_pos ⟨h2, h3⟩, if_pos ⟨by omega, by omega, h3.2⟩, e]
          simp
        · rw [if_neg (by tauto), if_neg (by omega), if_neg (by omega)]
      · rw [if_neg (by omega), if_neg (by omega), if_neg (by omega)]

/-! ## Retargeting: lemmas -/

theorem istring_t.get_buffer_size_of_array (s : istring_array) :
    (istring_t.of_array s).get_buffer_size = s.buf.length := rfl

theorem istring_array.resize_to_eq_scan (s : istring_array) (k : Nat) :
    s.resize_to k = istring_array.resize_to_scan (max k s.buffer_size) s 1 31 := rfl

theorem istring_array.resize_to_scan_eq (t : Nat) (s : istring_array) : ∀ fuel bit,
    istring_array.resize_to_scan t s bit fuel =
      if ladder_scan t bit fuel = 0 then
        Except.error "cannot resize to a string of this size."
      else
        Except.ok (istring_t.of_array
          (istring_array.of_cstr (ladder_scan t bit fuel) s.begin (to_int s.len))) := by
  intro fuel
  induction fuel with
  | zero => intro bit; simp [istring_array.resize_to_scan, ladder_scan]
  | succ n ih =>
    intro bit
    have hpos : 0 < 2 ^ bit := Nat.pos_pow_of_pos bit (by decide)
    simp only [istring_array.resize_to_scan, istring_array.ISTRING_RESIZE_TO, ladder_scan, set_bit,
      Nat.one_shiftLeft, ge_iff_le]
    by_cases hc : t ≤ 2 ^ bit
    · rw [if_pos hc, if_pos hc, if_neg (by omega)]
    · rw [if_neg hc, if_neg hc, ih (bit + 1)]

theorem istring_array.resize_to_eq (s : istring_array) (k : Nat) :
    s.resize_to k =
      if ladder_scan (max k s.buffer_size) 1 31 = 0 then
        Except.error "cannot resize to a string of this size."
      else
        Except.ok (istring_t.of_array (istring_array.of_cstr
          (ladder_scan (max k s.buffer_size) 1 31) s.begin (to_int s.len))) := by
  rw [istring_array.resize_to_eq_scan, istring_array.resize_to_scan_eq]

theorem ladder_scan_one_eq_zero_iff (t : Nat) : ladder_scan t 1 31 = 0 ↔ 2 ^ 31 < t := by
  rw [ladder_scan_eq_zero_iff]
  simp

theorem istring_array.resize_to_ok (s : istring_array) (k : Nat)
    (h : max k s.get_buffer_size ≤ 2 ^ 31) :
    s.resize_to k = Except.ok (istring_t.of_array (istring_array.of_cstr
      (ladder_scan (max k s.get_buffer_size) 1 31) s.begin (to_int s.len))) := by
  rw [istring_array.resize_to_eq]
  have hz : ¬ ladder_scan (max k s.buffer_size) 1 31 = 0 := by
    rw [ladder_scan_one_eq_zero_iff]
    exact Nat.not_lt.mpr h
  rw [if_neg hz]
  rfl

theorem istring_array.resize_to_error (s : istring_array) (k : Nat)
    (h : 2 ^ 31 < max k s.get_buffer_size) :
    s.resize_to k = Except.error "cannot resize to a string of this size." := by
  rw [istring_array.resize_to_eq]
  have hz : ladder_scan (max k s.buffer_size) 1 31 = 0 := by
    rw [ladder_scan_one_eq_zero_iff]
    exact h
  rw [if_pos hz]

theorem istring_array.get_buffer_size_of_cstr (N : Nat) (a : List Nat) (l : Int) :
    (istring_t.of_array (istring_array.of_cstr N a l)).get_buffer_size = N := by
  rw [istring_t.get_buffer_size_of_array]
  exact length_make_char_array N a

theorem length_make_istring (str : List Nat) :
    (make_istring str).buf.length = next_power_of_two str.length := by
  simp [make_istring, istring_array.of_std_array, length_store, length_copy, length_zero_array,
    regular_array]

theorem to_size_t_natCast (N : Nat) (h : N < 2 ^ 64) : to_size_t (N : Int) = N := by
  unfold to_size_t size_t_bits
  omega

theorem to_size_t_to_int (x : Nat) (h : x < 2 ^ 31) : to_size_t (to_int x) = x := by
  unfold to_size_t to_int size_t_bits
  rw [if_pos (by omega)]
  omega

theorem size_make_istring (str : List Nat) (h : str.length < 2 ^ 31) :
    (make_istring str).size = str.length := by
  simp only [make_istring, istring_array.of_std_array, istring_array.size]
  exact to_size_t_to_int _ h

/-! ## Growing: lemmas -/

theorem istring_array.next_array_small (N : Nat) (h : N < 2 ^ 63) :
    istring_array.next_array N = N * 2 := by
  unfold istring_array.next_array size_t_bits
  have e : N * 2 % 2 ^ 64 = N * 2 := Nat.mod_eq_of_lt (by omega)
  rw [e, if_neg (by omega)]

theorem istring_array.le_next_array (N : Nat) : N ≤ istring_array.next_array N := by
  unfold istring_array.next_array
  split
  · exact le_refl N
  · omega

theorem istring_array.resize_error_iff (s : istring_array) :
    s.resize = Except.error "string too large; cannot resize" ↔
      istring_array.next_array s.get_buffer_size = max_string_length := by
  unfold istring_array.resize istring_array.get_buffer_size
  by_cases h : istring_array.next_array s.buffer_size = max_string_length
  · simp [h]
  · simp [h]

theorem istring_array.resize_ok (s : istring_array)
    (h : istring_array.next_array s.get_buffer_size ≠ max_string_length) :
    s.resize = Except.ok (istring_array.of_std_array
      (copy s.buf 0 (zero_array (istring_array.next_array s.get_buffer_size)))
      (to_int s.len)) := by
  unfold istring_array.resize
  have h2 : (istring_array.next_array s.buffer_size == max_string_length) = false := by
    simpa using h
  rw [h2]
  rfl

theorem istring_array.resize_ok_get_buffer_size (s r : istring_array)
    (h : s.resize = Except.ok r) :
    r.get_buffer_size = istring_array.next_array s.get_buffer_size := by
  by_cases hn : istring_array.next_array s.get_buffer_size = max_string_length
  · rw [(istring_array.resize_error_iff s).mpr hn] at h
    cases h
  · rw [istring_array.resize_ok s hn] at h
    cases h
    show (copy s.buf 0 (zero_array _)).length = _
    rw [length_copy, length_zero_array]

theorem istring_array.resize_ok_size (s r : istring_array)
    (h : s.resize = Except.ok r) : r.size = to_size_t (to_int s.size) := by
  by_cases hn : istring_array.next_array s.get_buffer_size = max_string_length
  · rw [(istring_array.resize_error_iff s).mpr hn] at h
    cases h
  · rw [istring_array.resize_ok s hn] at h
    cases h
    rfl

theorem istring_array.resize_ok_bracket (s r : istring_array)
    (h : s.resize = Except.ok r) (i : Nat) (hi : i < s.get_buffer_size) :
    r.bracket_operator i = s.bracket_operator i := by
  by_cases hn : istring_array.next_array s.get_buffer_size = max_string_length
  · rw [(istring_array.resize_error_iff s).mpr hn] at h
    cases h
  · rw [istring_array.resize_ok s hn] at h
    cases h
    show (copy s.buf 0 (zero_array _))[i]? = s.buf[i]?
    have hle := istring_array.le_next_array s.get_buffer_size
    have hi2 : i < s.buf.length := hi
    rw [getElem_opt_copy, length_zero_array, if_pos ⟨by omega, by omega, by omega⟩]
    rfl

theorem istring_array.get_buffer_size_zero_array (N l : Nat) :
    (istring_array.mk (zero_array N) l).get_buffer_size = N :=
  length_zero_array N

/-! ## Comparison: lemmas -/

theorem content_nil : content [] = [] := rfl

theorem content_cons (c : Nat) (cs : List Nat) :
    content (c :: cs) = if c = nullchr then [] else c :: content cs := by
  unfold content
  by_cases h : c = nullchr
  · simp [h, List.takeWhile_cons]
  · simp [h, List.takeWhile_cons]

theorem strcmp_eq_zero_iff (a : List Nat) : ∀ b : List Nat,
    strcmp a b = 0 ↔ content a = content b := by
  induction a with
  | nil =>
    intro b
    cases b with
    | nil => simp [strcmp]
    | cons b bs =>
      rw [content_nil, content_cons]
      unfold strcmp nullchr
      by_cases hb : b = 0
      · simp [hb]
      · rw [if_neg hb]
        constructor
        · intro h; omega
        · intro h; cases h
  | cons a as ih =>
    intro b
    cases b with
    | nil =>
      rw [content_nil, content_cons]
      unfold strcmp nullchr
      by_cases ha : a = 0
      · simp [ha]
      · rw [if_neg ha]
        constructor
        · intro h; omega
        · intro h; cases h
    | cons b bs =>
      rw [content_cons, content_cons]
      unfold strcmp
      unfold nullchr
      by_cases hab : a = b
      · subst hab
        by_cases ha : a = 0
        · simp [ha]
        · rw [if_pos ⟨ha, rfl⟩, if_neg ha, if_neg ha, ih bs]
          constructor
          · intro h; rw [h]
          · intro h; exact (List.cons.inj h).2
      · rw [if_neg (by tauto)]
        constructor
        · intro h; omega
        · intro h
          by_cases ha : a = 0
          · rw [if_pos ha] at h
            by_cases hb : b = 0
            · omega
            · rw [if_neg hb] at h
              cases h
          · rw [if_neg ha] at h
            by_cases hb : b = 0
            · rw [if_pos hb] at h
              cases h
            · rw [if_neg hb] at h
              exact absurd (List.cons.inj h).1 hab

theorem operator_eq_eq (l r : operand) :
    operator_eq l r = (strcmp l.begin r.begin == 0) := by
  cases l <;> cases r <;> rfl

theorem operator_eq_iff (l r : operand) :
    operator_eq l r = true ↔ content l.begin = content r.begin := by
  rw [operator_eq_eq, beq_iff_eq, strcmp_eq_zero_iff]

theorem to_int_to_size_t (l : Int) (h1 : -2 ^ 31 ≤ l) (h2 : l < 2 ^ 31) :
    to_int (to_size_t l) = l := by
  unfold to_int to_size_t size_t_bits
  split <;> omega

theorem strlen_lt_length (a : List Nat) (h : has_terminator a) : strlen a < a.length := by
  induction a with
  | nil => simp [has_terminator] at h
  | cons c cs ih =>
    unfold strlen
    by_cases hc : c = nullchr
    · rw [if_pos hc]
      simp
    · rw [if_neg hc]
      have h2 : has_terminator cs := by
        unfold has_terminator at h ⊢
        rcases List.mem_cons.mp h with h3 | h3
        · exact absurd h3.symm hc
        · exact h3
      have := ih h2
      simp only [List.length_cons]
      omega

theorem strlen_eq_length_content (a : List Nat) : strlen a = (content a).length := by
  induction a with
  | nil => rfl
  | cons c cs ih =>
    rw [content_cons]
    unfold strlen
    by_cases hc : c = nullchr
    · rw [if_pos hc, if_pos hc]
      rfl
    · rw [if_neg hc, if_neg hc, ih]
      rfl

theorem operand.length_begin (x : operand) : x.begin.length = x.get_buffer_size := by
  cases x <;> rfl

/-! ## The ladder: further lemmas -/

theorem next_power_of_two_large (s : Nat) (h : 2 ^ 31 < s) : next_power_of_two s = 0 := by
  rw [next_power_of_two_eq_scan, ladder_scan_eq_zero_iff]
  right
  simpa using h

theorem not_ladder_zero : ¬ ladder 0 := by
  rintro ⟨j, _, h⟩
  have : 0 < 2 ^ j := Nat.pos_pow_of_pos j (by decide)
  omega

theorem ladder_le_max (c : Nat) (h : ladder c) : c ≤ 2 ^ 31 := by
  obtain ⟨j, hj, rfl⟩ := h
  exact Nat.pow_le_pow_right (by decide) hj

theorem ladder_pos (c : Nat) (h : ladder c) : 1 ≤ c := by
  obtain ⟨j, _, rfl⟩ := h
  exact Nat.pos_pow_of_pos j (by decide)

theorem next_power_of_two_of_ladder (c : Nat) (h : ladder c) : next_power_of_two c = c := by
  obtain ⟨j, hj, he, hs, hlow⟩ := next_power_of_two_spec c (ladder_le_max c h)
  have h1 : 2 ^ j ≤ c := ladder_least c j c hlow h (le_refl c)
  omega

theorem ladder_scan_one_of_ladder (c : Nat) (h : ladder c) (h2 : 2 ≤ c) :
    ladder_scan c 1 31 = c := by
  rw [ladder_scan_one_large c h2, next_power_of_two_of_ladder c h]

theorem le_ladder_scan_one (t : Nat) (h : t ≤ 2 ^ 31) : t ≤ ladder_scan t 1 31 := by
  by_cases h1 : t ≤ 1
  · rw [ladder_scan_one_small t h1]
    omega
  · rw [ladder_scan_one_large t (by omega)]
    obtain ⟨j, _, he, hs, _⟩ := next_power_of_two_spec t h
    omega

theorem ladder_ladder_scan_one (t : Nat) (h : t ≤ 2 ^ 31) : ladder (ladder_scan t 1 31) := by
  by_cases h1 : t ≤ 1
  · rw [ladder_scan_one_small t h1]
    exact ⟨1, by decide, rfl⟩
  · rw [ladder_scan_one_large t (by omega)]
    obtain ⟨j, hj, he, _, _⟩ := next_power_of_two_spec t h
    exact ⟨j, hj, he⟩

theorem two_le_ladder_scan_one (t : Nat) (h : t ≤ 2 ^ 31) : 2 ≤ ladder_scan t 1 31 := by
  have hs := ladder_scan_spec t 31 1 (by simpa using h) (by decide)
  by_cases h1 : t ≤ 1
  · rw [ladder_scan_one_small t h1]
  · obtain ⟨j, hj1, _, he, _, _⟩ := hs (by
      intro j hj
      have : j = 0 := by omega
      subst this
      omega)
    rw [he]
    calc 2 = 2 ^ 1 := rfl
      _ ≤ 2 ^ j := Nat.pow_le_pow_right (by decide) hj1

/-! ## C strings: lemmas -/

theorem strlen_le_length (a : List Nat) : strlen a ≤ a.length := by
  induction a with
  | nil => simp [strlen]
  | cons c cs ih =>
    unfold strlen
    split
    · simp
    · simp only [List.length_cons]
      omega

theorem take_strlen (a : List Nat) : a.take (strlen a) = content a := by
  induction a with
  | nil => rfl
  | cons c cs ih =>
    rw [content_cons]
    unfold strlen
    by_cases hc : c = nullchr
    · rw [if_pos hc, if_pos hc]
      rfl
    · rw [if_neg hc, if_neg hc, List.take_succ_cons, ih]

theorem getElem_opt_content (a : List Nat) : ∀ i, i < strlen a → (content a)[i]? = a[i]? := by
  induction a with
  | nil => intro i h; simp [strlen] at h
  | cons c cs ih =>
    intro i h
    rw [content_cons]
    unfold strlen at h
    by_cases hc : c = nullchr
    · rw [if_pos hc] at h
      omega
    · rw [if_neg hc] at h
      rw [if_neg hc]
      cases i with
      | zero => simp
      | succ n =>
        simp only [List.getElem?_cons_succ]
        exact ih n (by omega)

theorem getElem_opt_strlen (a : List Nat) (h : has_terminator a) :
    a[strlen a]? = some nullchr := by
  induction a with
  | nil => simp [has_terminator] at h
  | cons c cs ih =>
    unfold strlen
    by_cases hc : c = nullchr
    · rw [if_pos hc]
      simp [hc]
    · rw [if_neg hc]
      have h2 : has_terminator cs := by
        unfold has_terminator at h ⊢
        rcases List.mem_cons.mp h with h3 | h3
        · exact absurd h3.symm hc
        · exact h3
      simp only [List.getElem?_cons_succ]
      exact ih h2

theorem getElem_opt_zero_array (N i : Nat) :
    (zero_array N)[i]? = if i < N then some nullchr else none := by
  unfold zero_array
  by_cases h : i < N
  · rw [if_pos h, List.getElem?_eq_getElem (by simpa using h)]
    simp
  · rw [if_neg h, List.getElem?_eq_none (by simpa using h)]

theorem getElem_opt_make_char_array (N : Nat) (a : List Nat) (i : Nat) (hN : strlen a ≤ N) :
    (make_char_array N a)[i]? =
      if i < strlen a then a[i]? else if i < N then some nullchr else none := by
  have hl : (a.take (strlen a)).length = strlen a := by
    rw [List.length_take]
    exact Nat.min_eq_left (strlen_le_length a)
  simp only [make_char_array, getElem_opt_store, getElem_opt_copy, length_copy, length_zero_array,
    getElem_opt_zero_array, hl]
  by_cases h1 : i < strlen a
  · rw [if_neg (by omega), if_pos ⟨by omega, by omega, by omega⟩, if_pos h1]
    simp only [Nat.sub_zero]
    rw [List.getElem?_take]
    rw [if_pos h1]
  · rw [if_neg h1]
    by_cases h2 : i < N
    · rw [if_pos h2]
      by_cases h3 : strlen a + 1 = i
      · rw [if_pos ⟨h3, h2⟩]
      · rw [if_neg (by tauto), if_neg (by omega)]
    · rw [if_neg h2, if_neg (by tauto), if_neg (by omega)]

theorem content_append_zeros (a : List Nat) (n : Nat) :
    content (a ++ List.replicate n nullchr) = content a := by
  induction a with
  | nil =>
    cases n with
    | zero => rfl
    | succ m =>
      simp only [List.nil_append, List.replicate_succ]
      rw [content_cons, if_pos rfl]
      rfl
  | cons c cs ih =>
    simp only [List.cons_append]
    rw [content_cons, content_cons, ih]

theorem content_content (a : List Nat) : content (content a) = content a := by
  induction a with
  | nil => rfl
  | cons c cs ih =>
    rw [content_cons]
    by_cases hc : c = nullchr
    · rw [if_pos hc]
      rfl
    · rw [if_neg hc, content_cons, if_neg hc, ih]

theorem copy_zero_array (src : List Nat) (N : Nat) (h : src.length ≤ N) :
    copy src 0 (zero_array N) = src ++ List.replicate (N - src.length) nullchr := by
  apply List.ext_getElem?
  intro i
  rw [getElem_opt_copy, length_zero_array, getElem_opt_zero_array]
  by_cases h1 : i < src.length
  · rw [if_pos ⟨by omega, by omega, by omega⟩, List.getElem?_append_left h1]
    rfl
  · rw [if_neg (by omega), List.getElem?_append_right (by omega)]
    by_cases h2 : i < N
    · rw [if_pos h2, List.getElem?_eq_getElem (by simp; omega)]
      simp
    · rw [if_neg h2, List.getElem?_eq_none (by simp; omega)]

theorem make_char_array_eq (N : Nat) (a : List Nat) (hN : strlen a ≤ N) :
    make_char_array N a = content a ++ List.replicate (N - strlen a) nullchr := by
  apply List.ext_getElem?
  intro i
  rw [getElem_opt_make_char_array N a i hN]
  have hlen : (content a).length = strlen a := (strlen_eq_length_content a).symm
  by_cases h1 : i < strlen a
  · rw [if_pos h1, List.getElem?_append_left (by omega), getElem_opt_content a i h1]
  · rw [if_neg h1, List.getElem?_append_right (by omega)]
    by_cases h2 : i < N
    · rw [if_pos h2, List.getElem?_eq_getElem (by simp; omega)]
      simp
    · rw [if_neg h2, List.getElem?_eq_none (by simp; omega)]

theorem content_make_char_array (N : Nat) (a : List Nat) (hN : strlen a ≤ N) :
    content (make_char_array N a) = content a := by
  rw [make_char_array_eq N a hN, content_append_zeros, content_content]

theorem content_copy_zero_array (src : List Nat) (N : Nat) (h : src.length ≤ N) :
    content (copy src 0 (zero_array N)) = content src := by
  rw [copy_zero_array src N h, content_append_zeros]

/-! ## Operands: lemmas -/

theorem istring_array.resize_to_inv (s : istring_array) (k : Nat) (x : istring_t)
    (h : s.resize_to k = Except.ok x) :
    max k s.get_buffer_size ≤ 2 ^ 31 ∧
      x = istring_t.of_array (istring_array.of_cstr
        (ladder_scan (max k s.get_buffer_size) 1 31) s.begin (to_int s.len)) := by
  by_cases hm : max k s.get_buffer_size ≤ 2 ^ 31
  · rw [istring_array.resize_to_ok s k hm] at h
    cases h
    exact ⟨hm, rfl⟩
  · rw [istring_array.resize_to_error s k (by omega)] at h
    cases h

theorem istring_array.resize_inv (s r : istring_array) (h : s.resize = Except.ok r) :
    istring_array.next_array s.get_buffer_size ≠ max_string_length ∧
      r = istring_array.of_std_array
        (copy s.buf 0 (zero_array (istring_array.next_array s.get_buffer_size)))
        (to_int s.len) := by
  by_cases hn : istring_array.next_array s.get_buffer_size = max_string_length
  · rw [(istring_array.resize_error_iff s).mpr hn] at h
    cases h
  · rw [istring_array.resize_ok s hn] at h
    cases h
    exact ⟨hn, rfl⟩

theorem operand_resize_to_inv (s r : operand) (k : Nat) (h : s.resize_to k = Except.ok r) :
    max k s.get_buffer_size ≤ 2 ^ 31 ∧
      r = operand.erased (istring_t.of_array (istring_array.of_cstr
        (ladder_scan (max k s.get_buffer_size) 1 31) s.begin (to_int s.size))) := by
  cases s with
  | concrete v =>
    simp only [operand.resize_to] at h
    cases hv : v.resize_to k with
    | error w => rw [hv] at h; cases h
    | ok x =>
      rw [hv] at h
      cases h
      obtain ⟨h1, h2⟩ := istring_array.resize_to_inv v k x hv
      exact ⟨h1, by rw [h2]; rfl⟩
  | erased y =>
    simp only [operand.resize_to] at h
    cases hv : y.resize_to k with
    | error w => rw [hv] at h; cases h
    | ok x =>
      rw [hv] at h
      cases h
      obtain ⟨h1, h2⟩ := istring_array.resize_to_inv y.ptr k x hv
      exact ⟨h1, by rw [h2]; rfl⟩

theorem operand_resize_inv (s r : operand) (h : s.resize = Except.ok r) :
    istring_array.next_array s.get_buffer_size ≠ max_string_length ∧
      r.begin = copy s.begin 0 (zero_array (istring_array.next_array s.get_buffer_size)) ∧
      r.size = to_size_t (to_int s.size) := by
  cases s with
  | concrete v =>
    simp only [operand.resize] at h
    cases hv : v.resize with
    | error w => rw [hv] at h; cases h
    | ok x =>
      rw [hv] at h
      cases h
      obtain ⟨h1, h2⟩ := istring_array.resize_inv v x hv
      exact ⟨h1, by rw [h2]; rfl, by rw [h2]; rfl⟩
  | erased y =>
    simp only [operand.resize] at h
    cases hv : y.resize with
    | error w => rw [hv] at h; cases h
    | ok x =>
      rw [hv] at h
      cases h
      have hv2 : istring_array.resize_erased y.ptr = Except.ok x := hv
      unfold istring_array.resize_erased at hv2
      cases hp : y.ptr.resize with
      | error w => rw [hp] at hv2; cases hv2
      | ok z =>
        rw [hp] at hv2
        cases hv2
        obtain ⟨h1, h2⟩ := istring_array.resize_inv y.ptr z hp
        exact ⟨h1, by rw [h2]; rfl, by rw [h2]; rfl⟩

theorem operand.get_buffer_size_resize (s r : operand) (h : s.resize = Except.ok r) :
    r.get_buffer_size = istring_array.next_array s.get_buffer_size := by
  obtain ⟨_, h2, _⟩ := operand_resize_inv s r h
  rw [← operand.length_begin, h2, length_copy, length_zero_array]

theorem operand.get_buffer_size_resize_to (s r : operand) (k : Nat)
    (h : s.resize_to k = Except.ok r) :
    r.get_buffer_size = ladder_scan (max k s.get_buffer_size) 1 31 := by
  obtain ⟨_, h2⟩ := operand_resize_to_inv s r k h
  rw [h2]
  exact length_make_char_array _ _

theorem has_terminator_append_zeros (a : List Nat) (n : Nat)
    (h : has_terminator a ∨ 0 < n) : has_terminator (a ++ List.replicate n nullchr) := by
  unfold has_terminator at h ⊢
  rw [List.mem_append]
  rcases h with h | h
  · exact Or.inl h
  · right
    rw [List.mem_replicate]
    exact ⟨by omega, rfl⟩

/-! ## Reachable strings: lemmas -/

theorem operand_resize_to_ok (s : operand) (k : Nat) (h : max k s.get_buffer_size ≤ 2 ^ 31) :
    s.resize_to k = Except.ok (operand.erased (istring_t.of_array (istring_array.of_cstr
      (ladder_scan (max k s.get_buffer_size) 1 31) s.begin (to_int s.size)))) := by
  cases s with
  | concrete v =>
    simp only [operand.resize_to]
    rw [istring_array.resize_to_ok v k h]
    rfl
  | erased y =>
    simp only [operand.resize_to]
    have e : y.resize_to k = y.ptr.resize_to k := rfl
    rw [e, istring_array.resize_to_ok y.ptr k h]
    rfl

theorem operand_resize_ok (s : operand)
    (h : istring_array.next_array s.get_buffer_size ≠ max_string_length) :
    ∃ r, s.resize = Except.ok r := by
  cases s with
  | concrete v =>
    simp only [operand.resize]
    rw [istring_array.resize_ok v h]
    exact ⟨_, rfl⟩
  | erased y =>
    simp only [operand.resize]
    have e : y.resize = istring_array.resize_erased y.ptr := rfl
    rw [e]
    unfold istring_array.resize_erased
    rw [istring_array.resize_ok y.ptr h]
    exact ⟨_, rfl⟩

theorem operand.size_clone (s : operand) : s.clone.size = s.size := by
  cases s <;> rfl

theorem operand.get_buffer_size_clone (s : operand) :
    s.clone.get_buffer_size = s.get_buffer_size := by
  cases s <;> rfl

theorem operand.size_resize_to (s r : operand) (k : Nat) (h : s.resize_to k = Except.ok r) :
    r.size = to_size_t (to_int s.size) := by
  obtain ⟨_, h2⟩ := operand_resize_to_inv s r k h
  rw [h2]
  rfl

theorem le_next_power_of_two (N : Nat) (h : N ≤ 2 ^ 31) : N ≤ next_power_of_two N := by
  obtain ⟨j, _, he, hs, _⟩ := next_power_of_two_spec N h
  omega

theorem reachable_size_le (x : operand) (h : reachable (2 ^ 31 - 1) x) :
    x.size < 2 ^ 31 ∧ x.size ≤ x.get_buffer_size := by
  induction h with
  | make str h1 h2 =>
    have hs : (make_istring str).size = str.length := size_make_istring str (by omega)
    have hc : (make_istring str).get_buffer_size = next_power_of_two str.length :=
      length_make_istring str
    have hle := le_next_power_of_two str.length (by omega)
    show (make_istring str).size < 2 ^ 31 ∧ (make_istring str).size ≤
      (make_istring str).get_buffer_size
    rw [hs, hc]
    omega
  | erase s _ ih => exact ih
  | clone s _ ih =>
    rw [operand.size_clone, operand.get_buffer_size_clone]
    exact ih
  | resize s r _ hok ih =>
    obtain ⟨_, _, hsz⟩ := operand_resize_inv s r hok
    have hcap := operand.get_buffer_size_resize s r hok
    have hle := istring_array.le_next_array s.get_buffer_size
    rw [hsz, to_size_t_to_int _ ih.1, hcap]
    omega
  | resize_to s r k _ hok ih =>
    obtain ⟨hmax, _⟩ := operand_resize_to_inv s r k hok
    have hsz := operand.size_resize_to s r k hok
    have hcap := operand.get_buffer_size_resize_to s r k hok
    have hge := le_ladder_scan_one _ hmax
    rw [hsz, to_size_t_to_int _ ih.1, hcap]
    omega

theorem copy_writes_lt (src : List Nat) : ∀ d i, i ∈ copy_writes src d → i < d + src.length := by
  induction src with
  | nil => intro d i h; simp [copy_writes] at h
  | cons c cs ih =>
    intro d i h
    simp only [copy_writes, List.mem_cons] at h
    simp only [List.length_cons]
    rcases h with h | h
    · omega
    · have := ih (d + 1) i h
      omega

theorem make_istring_writes_inside_iff (str : List Nat) :
    (∀ i, i ∈ make_istring_writes str → i < (make_istring str).get_buffer_size) ↔
      str.length < next_power_of_two str.length := by
  have hc : (make_istring str).get_buffer_size = next_power_of_two str.length :=
    length_make_istring str
  rw [hc]
  constructor
  · intro h
    exact h str.length (by simp [make_istring_writes])
  · intro h i hi
    simp only [make_istring_writes, List.mem_append, List.mem_singleton] at hi
    rcases hi with hi | hi
    · have := copy_writes_lt str 0 i hi
      omega
    · omega

theorem size_make_istring_eq (str : List Nat) :
    (make_istring str).size = to_size_t (to_int str.length) := rfl

theorem get_buffer_size_make_istring (str : List Nat) :
    (make_istring str).get_buffer_size = next_power_of_two str.length :=
  length_make_istring str

theorem operand.is_empty_iff (s : operand) :
    s.is_empty = true ↔ (s.get_buffer_size = 0 ∨ s.bracket_operator 0 = some nullchr) := by
  have key : ∀ v : istring_array, v.is_empty = true ↔
      (v.get_buffer_size = 0 ∨ v.bracket_operator 0 = some nullchr) := by
    intro v
    unfold istring_array.is_empty istring_array.get_buffer_size istring_array.bracket_operator
    simp
  cases s with
  | concrete v => exact key v
  | erased y => exact key y.ptr

theorem length_literal (vis : List Nat) : (literal vis).length = vis.length + 1 := by
  simp [literal]

theorem getElem_opt_make_istring_zero (c : Nat) (cs : List Nat)
    (h : (c :: cs).length ≤ 2 ^ 31) : (make_istring (c :: cs)).buf[0]? = some c := by
  have hle := le_next_power_of_two (c :: cs).length h
  have hpos : 0 < (c :: cs).length := by simp
  simp only [make_istring, istring_array.of_std_array, regular_array, getElem_opt_store,
    getElem_opt_copy, length_copy, length_zero_array]
  rw [if_neg (by omega), if_pos ⟨by omega, by omega, by omega⟩]
  simp

/-! ## Access traces of `resize_to`: lemmas -/

theorem strlen_reads_lt (a : List Nat) : ∀ first, has_terminator a →
    ∀ i, i ∈ strlen_reads a first → i < first + a.length := by
  induction a with
  | nil => intro first h; simp [has_terminator] at h
  | cons c cs ih =>
    intro first h i hi
    unfold strlen_reads at hi
    simp only [List.length_cons]
    by_cases hc : c = nullchr
    · rw [if_pos hc] at hi
      simp only [List.mem_singleton] at hi
      omega
    · rw [if_neg hc] at hi
      have h2 : has_terminator cs := by
        unfold has_terminator at h ⊢
        rcases List.mem_cons.mp h with h3 | h3
        · exact absurd h3.symm hc
        · exact h3
      rcases List.mem_cons.mp hi with h4 | h4
      · omega
      · have := ih (first + 1) h2 i h4
        omega

theorem copy_reads_lt (src : List Nat) : ∀ d i, i ∈ copy_reads src d → i < d + src.length := by
  induction src with
  | nil => intro d i h; simp [copy_reads] at h
  | cons c cs ih =>
    intro d i h
    simp only [copy_reads, List.mem_cons] at h
    simp only [List.length_cons]
    rcases h with h | h
    · omega
    · have := ih (d + 1) i h
      omega

theorem length_take_strlen (a : List Nat) : (a.take (strlen a)).length = strlen a := by
  rw [List.length_take]
  exact Nat.min_eq_left (strlen_le_length a)

theorem make_char_array_reads_lt (a : List Nat) (h : has_terminator a) :
    ∀ i, i ∈ make_char_array_reads a → i < a.length := by
  intro i hi
  simp only [make_char_array_reads, List.mem_append] at hi
  rcases hi with hi | hi
  · have := strlen_reads_lt a 0 h i hi
    omega
  · have := copy_reads_lt _ 0 i hi
    rw [length_take_strlen] at this
    have := strlen_le_length a
    omega

theorem make_char_array_writes_inside_iff (a : List Nat) (c : Nat) :
    (∀ i, i ∈ make_char_array_writes a → i < c) ↔ strlen a + 1 < c := by
  constructor
  · intro h
    exact h (strlen a + 1) (by simp [make_char_array_writes])
  · intro h i hi
    simp only [make_char_array_writes, List.mem_append, List.mem_singleton] at hi
    rcases hi with hi | hi
    · have := copy_writes_lt _ 0 i hi
      rw [length_take_strlen] at this
      omega
    · omega

theorem istring_array.resize_to_reads_lt (s : istring_array) (h : has_terminator s.buf) :
    ∀ i, i ∈ s.resize_to_reads → i < s.get_buffer_size :=
  make_char_array_reads_lt s.buf h

theorem istring_array.resize_to_writes_inside_iff (s : istring_array) (k : Nat) (x : istring_t)
    (_hok : s.resize_to k = Except.ok x) :
    (∀ i, i ∈ s.resize_to_writes → i < x.get_buffer_size) ↔
      strlen s.buf + 1 < x.get_buffer_size :=
  make_char_array_writes_inside_iff s.buf x.get_buffer_size

theorem istring_array.resize_to_full_buffer (s : istring_array) (k : Nat)
    (hN : ladder s.get_buffer_size) (h2 : 2 ≤ s.get_buffer_size) (hk : k ≤ s.get_buffer_size)
    (hfull : strlen s.buf + 1 = s.get_buffer_size) :
    ∃ x, s.resize_to k = Except.ok x ∧ x.get_buffer_size = s.get_buffer_size ∧
      s.get_buffer_size ∈ s.resize_to_writes := by
  have hmax : max k s.get_buffer_size = s.get_buffer_size := Nat.max_eq_right hk
  have hle : max k s.get_buffer_size ≤ 2 ^ 31 := by
    rw [hmax]
    exact ladder_le_max _ hN
  refine ⟨_, istring_array.resize_to_ok s k hle, ?_, ?_⟩
  · rw [istring_array.get_buffer_size_of_cstr, hmax]
    exact ladder_scan_one_of_ladder _ hN h2
  · rw [← hfull]
    simp [istring_array.resize_to_writes, make_char_array_writes, istring_array.begin]

/-! ## Calls whose accesses are inside their arrays: lemmas -/

theorem make_istring_defined_iff (str : List Nat) :
    make_istring_defined str ↔
      (str.length < 2 ^ 31 ∧ str.length < next_power_of_two str.length) := by
  unfold make_istring_defined
  have h := make_istring_writes_inside_iff str
  rw [get_buffer_size_make_istring] at h
  rw [show regular_array str.length = next_power_of_two str.length from rfl, h]

theorem make_char_array_defined_iff (buffer_size : Nat) (a : List Nat) :
    make_char_array_defined buffer_size a ↔
      ((∀ i, i ∈ make_char_array_reads a → i < a.length) ∧ strlen a + 1 < buffer_size) := by
  unfold make_char_array_defined
  rw [make_char_array_writes_inside_iff]

theorem make_char_array_defined_of (buffer_size : Nat) (a : List Nat)
    (ht : has_terminator a) (hin : strlen a + 1 < buffer_size) :
    make_char_array_defined buffer_size a :=
  (make_char_array_defined_iff buffer_size a).mpr ⟨make_char_array_reads_lt a ht, hin⟩

theorem reachable_of_reachable_defined (x : operand) (h : reachable_defined x) :
    reachable (2 ^ 31 - 1) x := by
  induction h with
  | make str h1 h2 => exact reachable.make str h1 (by have := h2.1; omega)
  | erase s _ ih => exact reachable.erase s ih
  | clone s _ ih => exact reachable.clone s ih
  | resize s r _ hok ih => exact reachable.resize s r ih hok
  | resize_to s r k _ hok _ ih => exact reachable.resize_to s r k ih hok

theorem getElem_opt_make_istring_first (str : List Nat) (h1 : 1 ≤ str.length)
    (h2 : str.length ≤ 2 ^ 31) : (make_istring str).buf[0]? = str[0]? := by
  cases str with
  | nil => simp at h1
  | cons c cs =>
    rw [getElem_opt_make_istring_zero c cs h2]
    simp

theorem content_eq_nil_iff (a : List Nat) (h : 1 ≤ a.length) :
    content a = [] ↔ a[0]? = some nullchr := by
  cases a with
  | nil => simp at h
  | cons c cs =>
    rw [content_cons]
    by_cases hc : c = nullchr
    · simp [hc]
    · simp [hc]

/-! ## The claims -/

/-- C1: for every requested size `s ≤ 2^31`, `next_power_of_two s` is a rung of
the ladder, covers `s`, and is below every rung that covers `s`; the rung for
`0` is `2^0`. -/
theorem C1_next_power_of_two_least_rung (s : Nat) (h : s ≤ 2 ^ 31) :
    ladder (next_power_of_two s) ∧ s ≤ next_power_of_two s ∧
      (∀ c, ladder c → s ≤ c → next_power_of_two s ≤ c) ∧ next_power_of_two 0 = 1 := by
  obtain ⟨j, hj, he, hs, hlow⟩ := next_power_of_two_spec s h
  refine ⟨⟨j, hj, he⟩, by omega, ?_, by decide⟩
  intro c hc hsc
  rw [he]
  exact ladder_least s j c hlow hc hsc

theorem C1_witness :
    (14 ≤ 2 ^ 31) ∧ (ladder (next_power_of_two 14) ∧ 14 ≤ next_power_of_two 14 ∧
      (∀ c, ladder c → 14 ≤ c → next_power_of_two 14 ≤ c) ∧ next_power_of_two 0 = 1) :=
  ⟨by decide, C1_next_power_of_two_least_rung 14 (by decide)⟩

/-- C2 (the code at the failing input): a variant of capacity `1` holding the
empty string, retargeted to `1`, comes back with capacity `2`, while the ladder
value covering `max 1 1` is `1`: the chain of `ISTRING_RESIZE_TO` starts at bit
`1`, not at bit `0`. -/
theorem C2_resize_to_skips_first_rung :
    (istring_array.mk [0] 0).get_buffer_size = 1 ∧
      ((istring_array.mk [0] 0).resize_to 1).map istring_t.get_buffer_size = Except.ok 2 ∧
      next_power_of_two (max 1 (istring_array.mk [0] 0).get_buffer_size) = 1 :=
  ⟨rfl, rfl, by decide⟩

/-- C3 (the code at the failing input): the zero-filled variant of capacity
`2^30`, a rung below the maximum `2^31`, does not grow: `resize()` raises its
logic error, because the guard compares the doubled capacity with
`max_string_length`. -/
theorem C3_resize_fails_below_maximum :
    ladder (2 ^ 30) ∧ 2 ^ 30 < max_string_length ∧
      (istring_array.mk (zero_array (2 ^ 30)) 0).get_buffer_size = 2 ^ 30 ∧
      (istring_array.mk (zero_array (2 ^ 30)) 0).resize =
        Except.error "string too large; cannot resize" := by
  refine ⟨⟨30, by decide, rfl⟩, by decide, istring_array.get_buffer_size_zero_array _ _, ?_⟩
  rw [istring_array.resize_error_iff, istring_array.get_buffer_size_zero_array]
  decide

/-- C4: for any two operands, concrete or erased, whose buffers hold a
terminator, the first terminator of each lies inside its buffer, and
`operator==` is true exactly when the code units before the first terminator
are the same on both sides, whatever the two capacities and the two stored
lengths are. -/
theorem C4_operator_eq_iff_same_content (l r : operand)
    (hl : has_terminator l.begin) (hr : has_terminator r.begin) :
    (operator_eq l r = true ↔ content l.begin = content r.begin) ∧
      strlen l.begin < l.get_buffer_size ∧ strlen r.begin < r.get_buffer_size := by
  refine ⟨operator_eq_iff l r, ?_, ?_⟩
  · rw [← operand.length_begin]
    exact strlen_lt_length _ hl
  · rw [← operand.length_begin]
    exact strlen_lt_length _ hr

theorem C4_witness :
    has_terminator (operand.concrete (istring_array.mk [97, 98, 99, 0] 4)).begin ∧
      has_terminator
        (operand.erased (istring_t.of_array (istring_array.mk [97, 98, 99, 0, 7, 0, 0, 0] 3))).begin ∧
      operator_eq (operand.concrete (istring_array.mk [97, 98, 99, 0] 4))
        (operand.erased (istring_t.of_array (istring_array.mk [97, 98, 99, 0, 7, 0, 0, 0] 3)))
        = true :=
  ⟨by decide, by decide,
   (C4_operator_eq_iff_same_content _ _ (by decide) (by decide)).1.mpr (by decide)⟩

/-- C5: over operands, concrete or erased and of any capacity, whose buffers hold
a terminator, `operator==` is reflexive, symmetric and transitive. -/
theorem C5_operator_eq_equivalence (a b c : operand)
    (_ha : has_terminator a.begin) (_hb : has_terminator b.begin)
    (_hc : has_terminator c.begin) :
    operator_eq a a = true ∧
      (operator_eq a b = true → operator_eq b a = true) ∧
      (operator_eq a b = true → operator_eq b c = true → operator_eq a c = true) := by
  refine ⟨(operator_eq_iff a a).mpr rfl, ?_, ?_⟩
  · intro h
    exact (operator_eq_iff b a).mpr ((operator_eq_iff a b).mp h).symm
  · intro h1 h2
    exact (operator_eq_iff a c).mpr
      (((operator_eq_iff a b).mp h1).trans ((operator_eq_iff b c).mp h2))

theorem C5_witness :
    operator_eq (operand.concrete (make_istring (literal hello_world)))
        (operand.erased (istring_t.of_array (make_istring (literal hello_world)))) = true ∧
      operator_eq (operand.erased (istring_t.of_array (make_istring (literal hello_world))))
        (operand.concrete (istring_array.mk (literal hello_world) 13)) = true ∧
      operator_eq (operand.concrete (make_istring (literal hello_world)))
        (operand.concrete (istring_array.mk (literal hello_world) 13)) = true := by
  have h := C5_operator_eq_equivalence
    (operand.concrete (make_istring (literal hello_world)))
    (operand.erased (istring_t.of_array (make_istring (literal hello_world))))
    (operand.concrete (istring_array.mk (literal hello_world) 13))
    (by decide) (by decide) (by decide)
  have h1 : operator_eq (operand.concrete (make_istring (literal hello_world)))
      (operand.erased (istring_t.of_array (make_istring (literal hello_world)))) = true := by
    decide
  have h2 : operator_eq (operand.erased (istring_t.of_array (make_istring (literal hello_world))))
      (operand.concrete (istring_array.mk (literal hello_world) 13)) = true := by
    decide
  exact ⟨h1, h2, h.2.2 h1 h2⟩

/-- C7: for every literal with `n` visible code units, `n + 1 ≤ 2^31`, the
string `make_istring` builds has capacity `next_power_of_two (n + 1)`, a rung of
the ladder that covers `n + 1`. -/
theorem C7_make_istring_capacity (vis : List Nat) (h : vis.length + 1 ≤ 2 ^ 31) :
    (make_istring (literal vis)).get_buffer_size = next_power_of_two (vis.length + 1) ∧
      ladder (make_istring (literal vis)).get_buffer_size ∧
      vis.length + 1 ≤ (make_istring (literal vis)).get_buffer_size := by
  have e : (make_istring (literal vis)).get_buffer_size = next_power_of_two (vis.length + 1) := by
    show (make_istring (literal vis)).buf.length = _
    rw [length_make_istring]
    simp [literal]
  obtain ⟨j, hj, he, hs, _⟩ := next_power_of_two_spec (vis.length + 1) h
  rw [e]
  exact ⟨rfl, ⟨j, hj, he⟩, by omega⟩

theorem C7_witness :
    (hello_world.length + 1 ≤ 2 ^ 31) ∧
      (make_istring (literal hello_world)).get_buffer_size = 16 ∧
      next_power_of_two (hello_world.length + 1) = 16 :=
  ⟨by decide,
   (C7_make_istring_capacity hello_world (by decide)).1.trans (by decide),
   by decide⟩

/-- C8 (the code at the failing inputs): `make_istring` stores the length of the
whole array, terminator included, so `size()` is `14` for `"hello, world!"`
(13 visible code units) and `1` for the empty literal, which `is_empty()`
reports as empty. -/
theorem C8_make_istring_size_counts_terminator :
    hello_world.length = 13 ∧ (make_istring (literal hello_world)).size = 14 ∧
      (make_istring (literal [])).size = 1 ∧ (make_istring (literal [])).is_empty = true :=
  ⟨by decide, by decide, by decide, by decide⟩

/-- C9: for every variant and every target `k`, `resize_to k` raises its logic
error exactly when `max k N` exceeds `max_string_length`, and returns a value
exactly when it does not. -/
theorem C9_resize_to_raises_iff (s : istring_array) (k : Nat) :
    (s.resize_to k = Except.error "cannot resize to a string of this size." ↔
        max_string_length < max k s.get_buffer_size) ∧
      ((∃ x, s.resize_to k = Except.ok x) ↔ max k s.get_buffer_size ≤ max_string_length) := by
  have hm : max_string_length = 2 ^ 31 := by decide
  rw [hm]
  by_cases h : max k s.get_buffer_size ≤ 2 ^ 31
  · have hok := istring_array.resize_to_ok s k h
    constructor
    · constructor
      · intro he
        rw [hok] at he
        cases he
      · intro hlt
        omega
    · constructor
      · intro _
        exact h
      · intro _
        exact ⟨_, hok⟩
  · have herr := istring_array.resize_to_error s k (by omega)
    constructor
    · constructor
      · intro _
        omega
      · intro _
        exact herr
    · constructor
      · rintro ⟨x, hx⟩
        rw [herr] at hx
        cases hx
      · intro hle
        exact absurd hle h

/-- C10 (what the code does): over the ladder, `resize()` raises its logic error
exactly at capacity `2^30`, one rung below the maximum; at the maximum `2^31`
itself it does not raise. -/
theorem C10_resize_raises_one_rung_early (s : istring_array) (h : ladder s.get_buffer_size) :
    s.resize = Except.error "string too large; cannot resize" ↔ s.get_buffer_size = 2 ^ 30 := by
  rw [istring_array.resize_error_iff]
  obtain ⟨j, hj, he⟩ := h
  have hlt : s.get_buffer_size < 2 ^ 63 := by
    rw [he]
    exact Nat.pow_lt_pow_right (by decide) (by omega)
  rw [istring_array.next_array_small _ hlt]
  have hm : max_string_length = 2 ^ 31 := by decide
  rw [hm]
  omega

theorem C10_witness :
    ladder (istring_array.mk (zero_array (2 ^ 30)) 0).get_buffer_size ∧
      (istring_array.mk (zero_array (2 ^ 30)) 0).resize =
        Except.error "string too large; cannot resize" ∧
      ladder (istring_array.mk (zero_array (2 ^ 31)) 0).get_buffer_size ∧
      (istring_array.mk (zero_array (2 ^ 31)) 0).resize ≠
        Except.error "string too large; cannot resize" := by
  have l30 : ladder (istring_array.mk (zero_array (2 ^ 30)) 0).get_buffer_size := by
    rw [istring_array.get_buffer_size_zero_array]
    exact ⟨30, by decide, rfl⟩
  have l31 : ladder (istring_array.mk (zero_array (2 ^ 31)) 0).get_buffer_size := by
    rw [istring_array.get_buffer_size_zero_array]
    exact ⟨31, by decide, rfl⟩
  refine ⟨l30, ?_, l31, ?_⟩
  · exact (C10_resize_raises_one_rung_early _ l30).mpr
      (istring_array.get_buffer_size_zero_array _ _)
  · intro he
    have := (C10_resize_raises_one_rung_early _ l31).mp he
    rw [istring_array.get_buffer_size_zero_array] at this
    omega

/-- C11 (counterexample): at the requested size `2^31 + 1` the cascade of
`next_power_of_two` ends in its last branch and has the value `0`, which is no
capacity of the ladder; nothing is signalled. -/
theorem C11_counterexample :
    2 ^ 31 < 2 ^ 31 + 1 ∧ next_power_of_two (2 ^ 31 + 1) = 0 ∧
      ¬ ladder (next_power_of_two (2 ^ 31 + 1)) := by
  refine ⟨by decide, by decide, ?_⟩
  rw [next_power_of_two_large _ (by decide)]
  exact not_ladder_zero

/-- C11 (amended): for every requested size `s > 2^31`, `next_power_of_two s`
signals no error; its value is `0`, which is not a capacity of the ladder, and
`regular_array` is then an array of no elements. -/
theorem C11_next_power_of_two_above_maximum (s : Nat) (h : 2 ^ 31 < s) :
    next_power_of_two s = 0 ∧ ¬ ladder (next_power_of_two s) ∧ regular_array s = 0 := by
  have e := next_power_of_two_large s h
  refine ⟨e, ?_, e⟩
  rw [e]
  exact not_ladder_zero

theorem C11_witness :
    2 ^ 31 < 5000000000 ∧ next_power_of_two 5000000000 = 0 ∧ regular_array 5000000000 = 0 :=
  ⟨by decide, (C11_next_power_of_two_above_maximum 5000000000 (by decide)).1,
   (C11_next_power_of_two_above_maximum 5000000000 (by decide)).2.2⟩

/-- C12 (counterexample): `make_istring` on the array of `"a\0bc"` gives capacity
`8` with `b` at index `2`; `resize_to(8)` keeps the capacity but copies only up to
the first terminator, so index `2` of the result holds the terminator. -/
theorem C12_counterexample :
    has_terminator (make_istring (literal [97, 0, 98, 99])).buf ∧
      (make_istring (literal [97, 0, 98, 99])).get_buffer_size = 8 ∧
      (make_istring (literal [97, 0, 98, 99])).bracket_operator 2 = some 98 ∧
      ∃ x, (make_istring (literal [97, 0, 98, 99])).resize_to 8 = Except.ok x ∧
        x.get_buffer_size = 8 ∧ x.bracket_operator 2 = some 0 :=
  ⟨by decide, by decide, by decide, _, rfl, by decide, by decide⟩

/-- C12 (amended): for every variant whose capacity `N` is a rung of the ladder
from `2` to `2^31`, whose buffer holds a terminator with the content length plus
one below `N` (the buffer is not full, so every store of `make_char_array` is
inside the new buffer), and every target `k ≤ N`, `resize_to k` returns a value
of capacity `N`, built with every access inside its arrays, whose buffer is the
original's at every index up to and including the first terminator and holds
the terminator at every later index; it is the original buffer when that holds
only terminators after its first one. -/
theorem C12_resize_to_within_capacity (s : istring_array) (k : Nat)
    (hN : ladder s.get_buffer_size) (h2 : 2 ≤ s.get_buffer_size)
    (ht : has_terminator s.buf) (hin : strlen s.buf + 1 < s.get_buffer_size)
    (hk : k ≤ s.get_buffer_size) :
    ∃ x, s.resize_to k = Except.ok x ∧ x.get_buffer_size = s.get_buffer_size ∧
      make_char_array_defined x.get_buffer_size s.begin ∧
      (∀ i, i ≤ strlen s.buf → x.bracket_operator i = s.bracket_operator i) ∧
      (∀ i, strlen s.buf ≤ i → i < s.get_buffer_size → x.bracket_operator i = some nullchr) ∧
      ((∀ i, strlen s.buf ≤ i → i < s.get_buffer_size → s.bracket_operator i = some nullchr) →
        x.begin = s.begin) := by
  have hmax : max k s.get_buffer_size = s.get_buffer_size := Nat.max_eq_right hk
  have hle : max k s.get_buffer_size ≤ 2 ^ 31 := by
    rw [hmax]
    exact ladder_le_max _ hN
  have hscan : ladder_scan (max k s.get_buffer_size) 1 31 = s.get_buffer_size := by
    rw [hmax]
    exact ladder_scan_one_of_ladder _ hN h2
  have hget : ∀ i, (make_char_array s.get_buffer_size s.buf)[i]? =
      if i < strlen s.buf then s.buf[i]? else
        if i < s.get_buffer_size then some nullchr else none :=
    fun i => getElem_opt_make_char_array _ _ i (by omega)
  have hcap : (istring_t.of_array (istring_array.of_cstr
      (ladder_scan (max k s.get_buffer_size) 1 31) s.begin (to_int s.len))).get_buffer_size =
      s.get_buffer_size := by
    rw [hscan]
    exact length_make_char_array _ _
  refine ⟨_, istring_array.resize_to_ok s k hle, hcap, ?_, ?_, ?_, ?_⟩
  · rw [hcap]
    exact make_char_array_defined_of _ _ ht hin
  · intro i hi
    show (make_char_array _ s.begin)[i]? = s.buf[i]?
    rw [hscan]
    show (make_char_array _ s.buf)[i]? = s.buf[i]?
    rw [hget]
    by_cases h1 : i < strlen s.buf
    · rw [if_pos h1]
    · have e : i = strlen s.buf := by omega
      rw [if_neg h1, if_pos (by omega), e, getElem_opt_strlen s.buf ht]
  · intro i hi hiN
    show (make_char_array _ s.begin)[i]? = some nullchr
    rw [hscan]
    show (make_char_array _ s.buf)[i]? = some nullchr
    rw [hget, if_neg (by omega), if_pos hiN]
  · intro hz
    show (make_char_array _ s.begin) = s.buf
    rw [hscan]
    show (make_char_array _ s.buf) = s.buf
    apply List.ext_getElem?
    intro i
    rw [hget]
    by_cases h1 : i < strlen s.buf
    · rw [if_pos h1]
    · rw [if_neg h1]
      by_cases h3 : i < s.get_buffer_size
      · rw [if_pos h3]
        exact (hz i (by omega) h3).symm
      · rw [if_neg h3]
        exact (List.getElem?_eq_none (by
          have : s.buf.length = s.get_buffer_size := rfl
          omega)).symm

theorem C12_witness :
    ∃ x, (make_istring (literal hello_world)).resize_to 3 = Except.ok x ∧
      x.get_buffer_size = 16 ∧ x.begin = (make_istring (literal hello_world)).begin := by
  obtain ⟨x, h1, h2, _, _, _, h5⟩ := C12_resize_to_within_capacity
    (make_istring (literal hello_world)) 3 ⟨4, by decide, by decide⟩ (by decide) (by decide)
    (by decide) (by decide)
  refine ⟨x, h1, h2.trans (by decide), h5 ?_⟩
  intro i h3 h4
  have h6 : i < 16 := h4
  have h7 : 13 ≤ i := h3
  interval_cases i <;> decide

/-- C13 (counterexample): `make_istring` on the array of `"a\0bc"` has length `5`
and capacity `8`, with `b` at index `2`, below the length; `resize_to(64)`
returns a value whose index `2` holds the terminator. -/
theorem C13_counterexample :
    has_terminator (make_istring (literal [97, 0, 98, 99])).buf ∧
      (make_istring (literal [97, 0, 98, 99])).size = 5 ∧
      (make_istring (literal [97, 0, 98, 99])).get_buffer_size = 8 ∧
      (make_istring (literal [97, 0, 98, 99])).bracket_operator 2 = some 98 ∧
      ∃ x, (make_istring (literal [97, 0, 98, 99])).resize_to 64 = Except.ok x ∧
        x.bracket_operator 2 = some 0 :=
  ⟨by decide, by decide, by decide, by decide, _, rfl, by decide⟩

/-- C13 (amended): for every variant with length at most its capacity and below
`2^31` (the constructors take the length as an `int`), whose buffer holds a
terminator, and every target `k` for which `resize_to k` returns a value whose
capacity is above the content length plus one (so that every store of
`make_char_array` is inside the new buffer), the result is built with every
access inside its arrays and has the same `size()`, still at most its capacity,
the same code unit as the original at every index up to and including the first
terminator, and the terminator at every later index. -/
theorem C13_resize_to_keeps_size_and_content (s : istring_array) (k : Nat) (x : istring_t)
    (hlen : s.size ≤ s.get_buffer_size) (hint : s.size < 2 ^ 31)
    (ht : has_terminator s.buf) (hok : s.resize_to k = Except.ok x)
    (hin : strlen s.buf + 1 < x.get_buffer_size) :
    make_char_array_defined x.get_buffer_size s.begin ∧
      x.size = s.size ∧ x.size ≤ x.get_buffer_size ∧
      (∀ i, i ≤ strlen s.buf → x.bracket_operator i = s.bracket_operator i) ∧
      (∀ i, strlen s.buf ≤ i → i < x.get_buffer_size → x.bracket_operator i = some nullchr) := by
  obtain ⟨hmax, hx⟩ := istring_array.resize_to_inv s k x hok
  have hcap : x.get_buffer_size = ladder_scan (max k s.get_buffer_size) 1 31 := by
    rw [hx]
    exact length_make_char_array _ _
  have hge : max k s.get_buffer_size ≤ x.get_buffer_size := by
    rw [hcap]
    exact le_ladder_scan_one _ hmax
  have hsl : strlen s.buf < s.get_buffer_size := strlen_lt_length s.buf ht
  have hsize : x.size = s.size := by
    rw [hx]
    exact to_size_t_to_int s.len hint
  have hget : ∀ i, x.bracket_operator i =
      if i < strlen s.buf then s.buf[i]? else
        if i < x.get_buffer_size then some nullchr else none := by
    intro i
    have hsl2 : strlen s.begin < s.get_buffer_size := hsl
    rw [hcap, hx]
    exact getElem_opt_make_char_array _ _ i (by omega)
  refine ⟨make_char_array_defined_of _ _ ht hin, hsize, by omega, ?_, ?_⟩
  · intro i hi
    rw [hget]
    by_cases h1 : i < strlen s.buf
    · rw [if_pos h1]
      rfl
    · have e : i = strlen s.buf := by omega
      rw [if_neg h1, if_pos (by omega), e]
      exact (getElem_opt_strlen s.buf ht).symm
  · intro i hi hiN
    rw [hget, if_neg (by omega), if_pos hiN]

theorem C13_witness :
    ∃ x, (make_istring (literal hello_world)).resize_to 64 = Except.ok x ∧
      x.size = 14 ∧ x.bracket_operator 12 = some 33 := by
  have h := C13_resize_to_keeps_size_and_content (make_istring (literal hello_world)) 64 _
    (by decide) (by decide) (by decide) rfl (by decide)
  exact ⟨_, rfl, h.2.1.trans (by decide), (h.2.2.2.1 12 (by decide)).trans (by decide)⟩

/-- C14 (the code at the failing input): the variant of capacity `4` holding
`"abc"` and its terminator, retargeted to `0`, comes back with capacity `4`, but
`make_char_array` builds that result with a store at index `4`, outside its
array.  Where every access is inside the arrays, growing keeps the visible
content: for every string, concrete or erased, whose buffer holds a terminator,
the result of a `resize()` that returns, or of a `resize_to(k)` that returns with
every access of `make_char_array` inside, holds a terminator, has the same code
units before its first terminator, and compares equal under `operator==`. -/
theorem C14_growing_keeps_content_where_defined :
    has_terminator (istring_array.of_std_array [97, 98, 99, 0] 3).buf ∧
      (∃ x, (istring_array.of_std_array [97, 98, 99, 0] 3).resize_to 0 = Except.ok x ∧
        x.get_buffer_size = 4 ∧
        4 ∈ (istring_array.of_std_array [97, 98, 99, 0] 3).resize_to_writes ∧
        ¬ make_char_array_defined x.get_buffer_size
          (istring_array.of_std_array [97, 98, 99, 0] 3).begin) ∧
      (∀ (s r : operand) (k : Nat), has_terminator s.begin →
        (s.resize = Except.ok r ∨
          (s.resize_to k = Except.ok r ∧ make_char_array_defined r.get_buffer_size s.begin)) →
        has_terminator r.begin ∧ content r.begin = content s.begin ∧
          operator_eq r s = true) := by
  refine ⟨by decide, ⟨_, rfl, by decide, by decide, by decide⟩, ?_⟩
  intro s r k ht hok
  have key : has_terminator r.begin ∧ content r.begin = content s.begin := by
    rcases hok with h | ⟨h, hdef⟩
    · obtain ⟨_, hb, _⟩ := operand_resize_inv s r h
      have hle : s.begin.length ≤ istring_array.next_array s.get_buffer_size := by
        rw [operand.length_begin]
        exact istring_array.le_next_array _
      rw [hb, copy_zero_array _ _ hle]
      exact ⟨has_terminator_append_zeros _ _ (Or.inl ht), content_append_zeros _ _⟩
    · obtain ⟨_, hr⟩ := operand_resize_to_inv s r k h
      have hin : strlen s.begin + 1 < r.get_buffer_size :=
        ((make_char_array_defined_iff _ _).mp hdef).2
      have hcap := operand.get_buffer_size_resize_to s r k h
      have hb : r.begin = make_char_array (ladder_scan (max k s.get_buffer_size) 1 31) s.begin := by
        rw [hr]
        rfl
      rw [hcap] at hin
      rw [hb, make_char_array_eq _ _ (by omega)]
      refine ⟨has_terminator_append_zeros _ _ (Or.inr (by omega)), ?_⟩
      rw [content_append_zeros, content_content]
  exact ⟨key.1, key.2, (operator_eq_iff r s).mpr key.2⟩

/-- C15: for every string, concrete or erased, whose buffer holds a terminator,
`clone()` has the same capacity, the same `size()` and the same buffer, which
holds a terminator, and compares equal to the string under `operator==`. -/
theorem C15_clone_is_identical (s : operand) (ht : has_terminator s.begin) :
    s.clone.get_buffer_size = s.get_buffer_size ∧ s.clone.size = s.size ∧
      s.clone.begin = s.begin ∧ has_terminator s.clone.begin ∧
      operator_eq s.clone s = true := by
  have hb : s.clone.begin = s.begin := by cases s <;> rfl
  refine ⟨by cases s <;> rfl, by cases s <;> rfl, hb, by rw [hb]; exact ht, ?_⟩
  rw [operator_eq_iff, hb]

theorem C15_witness :
    (operand.erased (istring_t.of_array (make_istring (literal hello_world)))).clone.size = 14 ∧
      operator_eq (operand.erased (istring_t.of_array (make_istring (literal hello_world)))).clone
        (operand.erased (istring_t.of_array (make_istring (literal hello_world)))) = true := by
  have h := C15_clone_is_identical
    (operand.erased (istring_t.of_array (make_istring (literal hello_world)))) (by decide)
  exact ⟨h.2.1.trans (by decide), h.2.2.2.2⟩

/-- C16: for every string, concrete or erased, of capacity `N` and every target
`k` for which `resize_to k` returns, the capacity of the result is at least `N` and
at least `k`. -/
theorem C16_resize_to_never_shrinks (s r : operand) (k : Nat)
    (hok : s.resize_to k = Except.ok r) :
    s.get_buffer_size ≤ r.get_buffer_size ∧ k ≤ r.get_buffer_size := by
  obtain ⟨hmax, _⟩ := operand_resize_to_inv s r k hok
  have hge := le_ladder_scan_one _ hmax
  rw [operand.get_buffer_size_resize_to s r k hok]
  omega

theorem C16_witness :
    ∃ r, (operand.concrete (make_istring (literal hello_world))).resize_to 3 = Except.ok r ∧
      16 ≤ r.get_buffer_size ∧ 3 ≤ r.get_buffer_size := by
  have h := C16_resize_to_never_shrinks
    (operand.concrete (make_istring (literal hello_world))) _ 3 rfl
  exact ⟨_, rfl, h.1, h.2⟩

/-- C17 (the code at the failing input): from `make_istring("hello, world!")`,
`resize_to(2^31)` returns a string of capacity `2^31`, and `resize()` on that
string returns one of capacity `2^32`, which is no rung of the ladder: the guard
of `resize()` only refuses a doubled capacity equal to `max_string_length`. -/
theorem C17_resize_leaves_the_ladder :
    ∃ x, reachable (2 ^ 31) x ∧ x.get_buffer_size = 2 ^ 32 ∧ ¬ ladder x.get_buffer_size := by
  have h0 : reachable (2 ^ 31) (operand.concrete (make_istring (literal hello_world))) :=
    reachable.make _ (by decide) (by decide)
  have hcap0 : (operand.concrete (make_istring (literal hello_world))).get_buffer_size = 16 := by
    decide
  have hmax : max (2 ^ 31) (operand.concrete (make_istring (literal hello_world))).get_buffer_size
      ≤ 2 ^ 31 := by
    rw [hcap0]
    decide
  have hok1 := operand_resize_to_ok (operand.concrete (make_istring (literal hello_world)))
    (2 ^ 31) hmax
  have h1 := reachable.resize_to _ _ _ h0 hok1
  have hcap1 := operand.get_buffer_size_resize_to _ _ _ hok1
  rw [hcap0] at hcap1
  have hscan : ladder_scan (max (2 ^ 31) 16) 1 31 = 2 ^ 31 := by decide
  rw [hscan] at hcap1
  obtain ⟨r, hok2⟩ := operand_resize_ok _ (by rw [hcap1]; decide)
  have h2 := reachable.resize _ _ h1 hok2
  have hcap2 := operand.get_buffer_size_resize _ _ hok2
  rw [hcap1] at hcap2
  have hnext : istring_array.next_array (2 ^ 31) = 2 ^ 32 := by decide
  rw [hnext] at hcap2
  refine ⟨r, h2, hcap2, ?_⟩
  rw [hcap2]
  intro hl
  have := ladder_le_max _ hl
  omega

/-- C18 (the code at the failing input): for the literal `"abc"`, an array of
`N = 4` code units, `make_istring` chooses capacity `4` and stores at index `4`,
outside its array, before it hands the length to the constructor; an array of
`2^31` code units is not accepted at all, its length does not fit the `int`
parameter.  Where every access is inside the arrays the invariant holds: every
string reachable from a well-formed `make_istring` whose stores are inside,
through the conversion to the erased handle, `clone`, `resize` calls that return
and `resize_to` calls that return with every access inside, has `size()` at most
`get_buffer_size()`. -/
theorem C18_size_within_capacity_where_defined :
    (literal [97, 98, 99]).length = 4 ∧
      (make_istring (literal [97, 98, 99])).get_buffer_size = 4 ∧
      4 ∈ make_istring_writes (literal [97, 98, 99]) ∧
      ¬ make_istring_defined (literal [97, 98, 99]) ∧
      (∀ str : List Nat, 2 ^ 31 ≤ str.length → ¬ make_istring_defined str) ∧
      reachable_defined (operand.concrete (make_istring (literal hello_world))) ∧
      (∀ x, reachable_defined x → x.size ≤ x.get_buffer_size) := by
  refine ⟨by decide, by decide, by decide, by decide, ?_, ?_, ?_⟩
  · intro str h hd
    have := hd.1
    omega
  · exact reachable_defined.make _ (by decide) (by decide)
  · intro x hx
    exact (reachable_size_le x (reachable_of_reachable_defined x hx)).2

/-- C19 (the code at the failing input): for the empty literal `""`, an array of
`N = 1` code unit, `make_istring` chooses capacity `1` and stores at the indices
`0` and then `1`, outside its array, so the string the claim calls empty is built
by an out-of-bounds store.  For every string, concrete or erased, `is_empty()`
is true exactly when the capacity is zero or the first code unit is the
terminator; and for every well-formed `make_istring` whose stores are inside,
`is_empty()` is true exactly when no code unit comes before the first terminator
of the array (false for `"hello, world!"`). -/
theorem C19_is_empty_where_defined :
    (literal []).length = 1 ∧ (make_istring (literal [])).get_buffer_size = 1 ∧
      make_istring_writes (literal []) = [0, 1] ∧ ¬ make_istring_defined (literal []) ∧
      (∀ s : operand, s.is_empty = true ↔
        (s.get_buffer_size = 0 ∨ s.bracket_operator 0 = some nullchr)) ∧
      (∀ str : List Nat, 1 ≤ str.length → make_istring_defined str →
        ((make_istring str).is_empty = true ↔ content str = [])) ∧
      make_istring_defined (literal hello_world) ∧
      content (literal hello_world) = hello_world ∧
      (make_istring (literal hello_world)).is_empty = false := by
  refine ⟨by decide, by decide, by decide, by decide, operand.is_empty_iff, ?_, by decide,
    by decide, by decide⟩
  intro str h1 hd
  have hlt : str.length < 2 ^ 31 := hd.1
  have h0 := getElem_opt_make_istring_first str h1 (by omega)
  have hcap : str.length ≤ (make_istring str).get_buffer_size := by
    rw [get_buffer_size_make_istring]
    exact le_next_power_of_two _ (by omega)
  rw [content_eq_nil_iff str h1, ← h0]
  constructor
  · intro he
    rcases (operand.is_empty_iff (operand.concrete (make_istring str))).mp he with h | h
    · have h' : (make_istring str).get_buffer_size = 0 := h
      omega
    · exact h
  · intro he
    exact (operand.is_empty_iff (operand.concrete (make_istring str))).mpr (Or.inr he)

/-- C20 (the code at the failing inputs): for the literal `"abc"`, an array of
`N = 4` code units, `make_istring` chooses capacity `4` and stores at the indices
`0, 1, 2, 3` and then at `4`, which is not below the capacity; in general every
store is inside the buffer exactly when `N` is below `next_power_of_two N`, which
fails for every `N` that is a rung of the ladder. -/
theorem C20_make_istring_writes_past_end :
    (literal [97, 98, 99]).length = 4 ∧
      (make_istring (literal [97, 98, 99])).get_buffer_size = 4 ∧
      make_istring_writes (literal [97, 98, 99]) = [0, 1, 2, 3, 4] ∧
      (∀ str : List Nat,
        (∀ i, i ∈ make_istring_writes str → i < (make_istring str).get_buffer_size) ↔
          str.length < next_power_of_two str.length) ∧
      (∀ N, ladder N → ¬ N < next_power_of_two N) := by
  refine ⟨by decide, by decide, by decide, make_istring_writes_inside_iff, ?_⟩
  intro N hN
  rw [next_power_of_two_of_ladder N hN]
  omega

/-- C21 (the code at the failing input): the variant of capacity `4` holding
`"abc"` and its terminator, retargeted to `0`, keeps capacity `4`; the terminator
search reads the indices `0..3` of the old buffer, and the stores into the new
buffer go to `0, 1, 2` and then to `4`, which is not below the new capacity.  In
general the reads stay inside the old buffer, and the stores are all inside the
new one exactly when the content length plus one is below the new capacity, which
fails whenever a full buffer of ladder capacity is retargeted within its
capacity. -/
theorem C21_resize_to_writes_past_end :
    has_terminator (istring_array.of_std_array [97, 98, 99, 0] 3).buf ∧
      max 0 (istring_array.of_std_array [97, 98, 99, 0] 3).get_buffer_size ≤ 2 ^ 31 ∧
      (∃ x, (istring_array.of_std_array [97, 98, 99, 0] 3).resize_to 0 = Except.ok x ∧
        x.get_buffer_size = 4) ∧
      (istring_array.of_std_array [97, 98, 99, 0] 3).resize_to_reads = [0, 1, 2, 3, 0, 1, 2] ∧
      (istring_array.of_std_array [97, 98, 99, 0] 3).resize_to_writes = [0, 1, 2, 4] ∧
      (∀ s : istring_array, has_terminator s.buf →
        ∀ i, i ∈ s.resize_to_reads → i < s.get_buffer_size) ∧
      (∀ (s : istring_array) (k : Nat) (x : istring_t), s.resize_to k = Except.ok x →
        ((∀ i, i ∈ s.resize_to_writes → i < x.get_buffer_size) ↔
          strlen s.buf + 1 < x.get_buffer_size)) ∧
      (∀ (s : istring_array) (k : Nat), ladder s.get_buffer_size → 2 ≤ s.get_buffer_size →
        k ≤ s.get_buffer_size → strlen s.buf + 1 = s.get_buffer_size →
        ∃ x, s.resize_to k = Except.ok x ∧ x.get_buffer_size = s.get_buffer_size ∧
          s.get_buffer_size ∈ s.resize_to_writes) :=
  ⟨by decide, by decide, ⟨_, rfl, by decide⟩, by decide, by decide,
   istring_array.resize_to_reads_lt, istring_array.resize_to_writes_inside_iff,
   istring_array.resize_to_full_buffer⟩

end istr
